import Mathlib

/-!
Verification development for the bipartite interaction-clustering programs
(Part_one.py, Part_two.py, Part_three.py).

Entities are their identifier strings.  Python sets and dicts are modelled by
duplicate-free lists and association lists; wherever Python iterates over a
set or a dict (an order the language leaves unspecified), the model fixes a
canonical deterministic order (first-appearance order for key lists and vote
counters, ascending index for cluster scans) and this choice is documented at
the definition.  Python float arithmetic on the duplication ratios is
modelled by exact rational arithmetic.  The breadth-first core expansion of
Part_two, an unbounded loop in the source, is modelled with a fuel parameter
large enough to cover every pop the loop can perform.
-/

set_option maxRecDepth 200000

namespace TechnicalBar

/-- A transaction list: (cardholder, merchant) pairs, as loaded from input. -/
abbrev Txs := List (String × String)

/-- Helper for tokens: scan the characters, accumulating the current token
(in reverse) and emitting it at each whitespace boundary. -/
def tokensAux : List Char → List Char → List String
  | [], cur => if cur = [] then [] else [String.mk cur.reverse]
  | c :: rest, cur =>
    if c.isWhitespace then
      (if cur = [] then tokensAux rest [] else String.mk cur.reverse :: tokensAux rest [])
    else tokensAux rest (c :: cur)

/-- Whitespace tokenisation of one input line, mirroring Python
line.strip().split(): runs of whitespace collapse, leading and trailing
whitespace is ignored and no empty tokens are produced. -/
def tokens (line : String) : List String := tokensAux line.toList []

/-- Part_one.load_transactions: keep exactly the lines with two tokens,
skipping all others and continuing. -/
def load_transactions (lines : List String) : Txs :=
  lines.filterMap (fun line =>
    match tokens line with
    | [a, b] => some (a, b)
    | _ => none)

/-- Part_three line 74: the unpacking c, m = line.strip().split() raises a
ValueError unless the line has exactly two tokens; the error aborts the run,
modelled by the Except error case. -/
def parseLineStrict (line : String) : Except String (String × String) :=
  match tokens line with
  | [a, b] => Except.ok (a, b)
  | _ => Except.error line

/-- Part_three Phase 1 input reading: the first malformed line aborts the
whole load (exception propagation), unlike Part_one which skips it. -/
def loadStrict (lines : List String) : Except String Txs :=
  lines.mapM parseLineStrict

/-- Python set.add on a duplicate-free list: append if absent. -/
def insertMem (e : String) (l : List String) : List String :=
  if e ∈ l then l else l ++ [e]

/-- Collapse a list to its distinct elements in first-appearance order,
the canonical iteration order chosen for Python sets and dict keys. -/
def firstDedup (l : List String) : List String :=
  l.foldl (fun acc v => insertMem v acc) []

/-- Part_one.create_interaction_graphs, cardholder side:
cardholder_to_merchants[c] as a duplicate-free list. -/
def cardholder_to_merchants (ts : Txs) (c : String) : List String :=
  firstDedup ((ts.filter (fun p => p.1 = c)).map Prod.snd)

/-- Part_one.create_interaction_graphs, merchant side:
merchant_to_cardholders[m] as a duplicate-free list. -/
def merchant_to_cardholders (ts : Txs) (m : String) : List String :=
  firstDedup ((ts.filter (fun p => p.2 = m)).map Prod.fst)

/-- The cardholder keys (Python: cardholder_to_merchants.keys()), in
first-appearance order. -/
def cKeys (ts : Txs) : List String := firstDedup (ts.map Prod.fst)

/-- The merchant keys (Python: merchant_to_cardholders.keys()). -/
def mKeys (ts : Txs) : List String := firstDedup (ts.map Prod.snd)

/-- Part_three's all_unique_entities set. -/
def entities (ts : Txs) : List String :=
  firstDedup (ts.map Prod.fst ++ ts.map Prod.snd)

/-- Python id.startswith("C"): the id's first character is C. -/
def startsC (s : String) : Bool :=
  match s.data with
  | [] => false
  | a :: _ => a == 'C'

/-- Python id.startswith("M"): the id's first character is M. -/
def startsM (s : String) : Bool :=
  match s.data with
  | [] => false
  | a :: _ => a == 'M'

/-- The well-formedness assumption Part_two's side dispatch relies on:
cardholder ids start with C and merchant ids with M. -/
abbrev disciplined (ts : Txs) : Prop :=
  ∀ p ∈ ts, startsC p.1 = true ∧ startsM p.2 = true

/-! ### Mode (b): iterative label propagation (Part_three Phases 1-2) -/

/-- Scan a list of candidate labels keeping the earliest one whose count is
strictly larger than the best so far.  This is exactly the tie behaviour of
Counter.most_common(1) (heapq.nlargest), which returns the first-inserted key
among those of maximal count. -/
def bestLabel (cnt : String → Nat) : List String → String × Nat → String × Nat
  | [], best => best
  | l :: rest, best => bestLabel cnt rest (if cnt l > best.2 then (l, cnt l) else best)

/-- Counter.most_common(1)[0][0] over a list of votes: the keys are the
distinct votes in first-occurrence (insertion) order, and the earliest key of
maximal multiplicity wins.  The default is returned for an empty vote list
(which the program never queries). -/
def pickWinner (vs : List String) (d : String) : String :=
  match firstDedup vs with
  | [] => d
  | k :: ks => (bestLabel (fun l => vs.count l) ks (k, vs.count k)).1

/-- Point lookup into the round snapshot induced by the label assignment lab:
it holds an entry for exactly the run's entities. -/
def snapFn (ts : Txs) (lab : String → String) (x : String) : Option String :=
  if x ∈ entities ts then some (lab x) else none

/-- One round of vote collection for one entity, given the round-k label
assignment lab (Part_three lines 116-129).  A neighbour absent from the
snapshot contributes no vote, while the entity's own label defaults to its id
(dict.get(c, c)).  An id that occurs as both a cardholder key and a merchant
key accumulates votes from both loops into the same counter, self-vote first
each time. -/
def votesWith (ts : Txs) (lab : String → String) (e : String) : List String :=
  (if e ∈ cKeys ts then
    (snapFn ts lab e).getD e :: (cardholder_to_merchants ts e).filterMap (snapFn ts lab)
   else [])
    ++ (if e ∈ mKeys ts then
      (snapFn ts lab e).getD e :: (merchant_to_cardholders ts e).filterMap (snapFn ts lab)
     else [])

/-- The label an entity holds after k rounds of label propagation.  Round 0
assigns every entity its own id (Part_three lines 83-86); each later round
takes the most-voted label of the previous round. -/
def labelAt (ts : Txs) : Nat → String → String
  | 0, e => e
  | k + 1, e => pickWinner (votesWith ts (fun x => labelAt ts k x) e) e

/-- The round-k snapshot file entity_cluster_id_k.csv as a mapping: an entry
for every entity of the run and nothing else. -/
def snapshotAt (ts : Txs) (k : Nat) (x : String) : Option String :=
  if x ∈ entities ts then some (labelAt ts k x) else none

/-! ### Mode (b): final aggregation and duplication (Part_three Phase 3) -/

/-- Neighbour-interaction count towards the final cluster labelled l in
Phase 3 duplication (Part_three lines 184-187): neighbours without a
snapshot entry are skipped. -/
def labelCount (ts : Txs) (R : Nat) (nbrs : List String) (l : String) : Nat :=
  (nbrs.filter (fun n => decide (n ∈ entities ts ∧ labelAt ts R n = l))).length

/-- The candidate cluster ids of the Phase 3 duplication scan for one
entity, in first-encounter order (the counts dict key order, instantiating
Python's set iteration by the canonical adjacency order). -/
def candLabels (ts : Txs) (R : Nat) (nbrs : List String) : List String :=
  firstDedup ((nbrs.filter (fun n => decide (n ∈ entities ts))).map (labelAt ts R))

/-- sorted(cluster_interaction_counts.items(), ...)[0] of Phase 3: the
earliest-encountered cluster id of maximal count (Python's sort is stable),
paired with its count.  Queried only when there are candidates. -/
def primary3 (ts : Txs) (R : Nat) (nbrs : List String) : String × Nat :=
  match candLabels ts R nbrs with
  | [] => ("", 0)
  | k :: ks => bestLabel (labelCount ts R nbrs) ks (k, labelCount ts R nbrs k)

/-- The ratio comparison c / d >= t of the duplication heuristic, written
by integer cross-multiplication so that it evaluates inside the kernel.
Whenever the denominator is positive this is exactly t ≤ c / d in ℚ
(theorem ratioGe_iff_le_div below), and both programs only divide by
positive counts. -/
abbrev ratioGe (c d : Nat) (t : ℚ) : Prop :=
  t.num * (d : Int) ≤ (c : Int) * (t.den : Int)

/-- Part_three lines 203-214: an entity with neighbour list nbrs is
duplicated into the cluster labelled l exactly when l is a non-primary
candidate whose interaction count passes the ratio test against the primary
count or the total neighbour count.  The primary cluster itself receives no
insertion in Phase 3. -/
abbrev dupSecondary3 (ts : Txs) (R : Nat) (t : ℚ) (nbrs : List String) (l : String) : Prop :=
  candLabels ts R nbrs ≠ [] ∧ l ≠ (primary3 ts R nbrs).1 ∧ 0 < labelCount ts R nbrs l ∧
    (ratioGe (labelCount ts R nbrs l) (primary3 ts R nbrs).2 t ∨
     ratioGe (labelCount ts R nbrs l) nbrs.length t)

/-- Phase 3 core aggregation (lines 159-163), cardholder side: the entity's
id starts with C and its final label is l. -/
abbrev coreCard3 (ts : Txs) (R : Nat) (e l : String) : Prop :=
  e ∈ entities ts ∧ startsC e = true ∧ labelAt ts R e = l

/-- Phase 3 core aggregation, merchant side: any id not starting with C is
aggregated as a merchant. -/
abbrev coreMerch3 (ts : Txs) (R : Nat) (e l : String) : Prop :=
  e ∈ entities ts ∧ startsC e = false ∧ labelAt ts R e = l

/-- Phase 3 duplication, cardholder loop (entity_type C over the cardholder
neighbour map). -/
abbrev dupCard3 (ts : Txs) (R : Nat) (t : ℚ) (e l : String) : Prop :=
  e ∈ cKeys ts ∧ cardholder_to_merchants ts e ≠ [] ∧
    dupSecondary3 ts R t (cardholder_to_merchants ts e) l

/-- Phase 3 duplication, merchant loop (entity_type M over the merchant
neighbour map). -/
abbrev dupMerch3 (ts : Txs) (R : Nat) (t : ℚ) (e l : String) : Prop :=
  e ∈ mKeys ts ∧ merchant_to_cardholders ts e ≠ [] ∧
    dupSecondary3 ts R t (merchant_to_cardholders ts e) l

/-- Final mode (b) cardholder membership in cluster l: core assignment or
duplication insertion.  Phase 3 only ever adds members, so membership is the
union of the two sources. -/
abbrev memCard3 (ts : Txs) (R : Nat) (t : ℚ) (e l : String) : Prop :=
  coreCard3 ts R e l ∨ dupCard3 ts R t e l

/-- Final mode (b) merchant membership in cluster l. -/
abbrev memMerch3 (ts : Txs) (R : Nat) (t : ℚ) (e l : String) : Prop :=
  coreMerch3 ts R e l ∨ dupMerch3 ts R t e l

/-- The cluster ids of the final aggregation, in canonical entity order. -/
def clusterIds3 (ts : Txs) (R : Nat) : List String :=
  firstDedup ((entities ts).map (labelAt ts R))

/-- The cardholder members of the cluster labelled l in the final mode (b)
output. -/
def cardholders3 (ts : Txs) (R : Nat) (t : ℚ) (l : String) : List String :=
  (entities ts).filter (fun e => decide (memCard3 ts R t e l))

/-- The merchant members of the cluster labelled l in the final mode (b)
output. -/
def merchants3 (ts : Txs) (R : Nat) (t : ℚ) (l : String) : List String :=
  (entities ts).filter (fun e => decide (memMerch3 ts R t e l))

/-- The total number of (entity, cluster) membership pairs of the final
mode (b) cluster set. -/
def total3 (ts : Txs) (R : Nat) (t : ℚ) : Nat :=
  ((clusterIds3 ts R).map (fun l =>
    (merchants3 ts R t l).length + (cardholders3 ts R t l).length)).sum

/-! ### Mode (a): core cluster formation (Part_two lines 44-126) -/

/-- A cluster: its merchant members and cardholder members. -/
structure Cluster where
  merchants : List String
  cardholders : List String
deriving DecidableEq, Repr

/-- The working state of one breadth-first core expansion. -/
structure BfsState where
  cc : List String
  cm : List String
  coreMap : List (String × Nat)
  unC : List String
  unM : List String
deriving DecidableEq, Repr

/-- entity_to_core_cluster_id lookup over the association-list model. -/
def lookupCore (m : List (String × Nat)) (e : String) : Option Nat :=
  (m.find? (fun p => p.1 == e)).map Prod.snd

/-- Part_two lines 92 and 107: the entity is already a core member of a
different cluster and acts as a bridge, so the expansion does not pull it in. -/
def isBridge (m : List (String × Nat)) (e : String) (cid : Nat) : Bool :=
  match lookupCore m e with
  | some j => j != cid
  | none => false

/-- Admit a cardholder into the growing cluster (Part_two lines 96-100):
add it to the cluster's cardholders and, only if it is still unassigned,
record its core cluster id and remove it from the unassigned pool. -/
def admitC (e : String) (cid : Nat) (st : BfsState) : BfsState :=
  if e ∈ st.unC then
    { st with cc := insertMem e st.cc,
              coreMap := (e, cid) :: st.coreMap,
              unC := st.unC.erase e }
  else { st with cc := insertMem e st.cc }

/-- Admit a merchant into the growing cluster (Part_two lines 111-115). -/
def admitM (e : String) (cid : Nat) (st : BfsState) : BfsState :=
  if e ∈ st.unM then
    { st with cm := insertMem e st.cm,
              coreMap := (e, cid) :: st.coreMap,
              unM := st.unM.erase e }
  else { st with cm := insertMem e st.cm }

/-- The breadth-first expansion loop of Part_two lines 88-119 on an explicit
FIFO queue.  The fuel bounds the number of pops; the callers pass enough fuel
for the queue to drain (each pop either shortens the queue or admits a new
member, and admissions enqueue at most each neighbour once per admission, so
the pops are bounded by the total adjacency size).  Entities whose id starts
with neither C nor M fall through both branches and are dropped, as in the
source. -/
def bfs (ts : Txs) (cid : Nat) : Nat → List String → BfsState → BfsState
  | 0, _, st => st
  | _ + 1, [], st => st
  | fuel + 1, e :: q, st =>
    if startsC e then
      if isBridge st.coreMap e cid then bfs ts cid fuel q st
      else if e ∈ st.cc then bfs ts cid fuel q st
      else
        bfs ts cid fuel
          (q ++ (cardholder_to_merchants ts e).filter (fun x => decide (x ∉ st.cm)))
          (admitC e cid st)
    else if startsM e then
      if isBridge st.coreMap e cid then bfs ts cid fuel q st
      else if e ∈ st.cm then bfs ts cid fuel q st
      else
        bfs ts cid fuel
          (q ++ (merchant_to_cardholders ts e).filter (fun x => decide (x ∉ st.cc)))
          (admitM e cid st)
    else bfs ts cid fuel q st

/-- The overall state of core cluster formation. -/
structure CoreState where
  clusters : List Cluster
  coreMap : List (String × Nat)
  unC : List String
  unM : List String
deriving DecidableEq, Repr

/-- The seed test of Part_two lines 69-75: the candidate is an unassigned
cardholder or an unassigned merchant. -/
def seedOk (st : CoreState) (e : String) : Bool :=
  (startsC e && decide (e ∈ st.unC)) || (startsM e && decide (e ∈ st.unM))

/-- The outer while-loop of Part_two lines 66-126.  Rescanning the shuffled
candidate list for the first unassigned entity, growing a cluster from it
and repeating is equivalent to a single left-to-right pass over the
candidates, because assignment is never undone.  A cluster is appended only
if the expansion admitted at least one member. -/
def coreFold (ts : Txs) (fuel : Nat) : List String → CoreState → CoreState
  | [], st => st
  | e :: rest, st =>
    if seedOk st e then
      (let b := bfs ts st.clusters.length fuel [e]
        { cc := [], cm := [], coreMap := st.coreMap, unC := st.unC, unM := st.unM }
      coreFold ts fuel rest
        { clusters :=
            if b.cm ≠ [] ∨ b.cc ≠ [] then st.clusters ++ [⟨b.cm, b.cc⟩] else st.clusters,
          coreMap := b.coreMap, unC := b.unC, unM := b.unM })
    else coreFold ts fuel rest st

/-- Fuel that covers every pop any single expansion can perform: one pop per
queue element, and each of the at most 2*len admissions enqueues at most
len neighbours. -/
def bfsFuel (ts : Txs) : Nat := (2 * ts.length + 1) * (ts.length + 1) + 1

/-- Core formation from a given candidate order. -/
def coreRun (ts : Txs) (cands : List String) : CoreState :=
  coreFold ts (bfsFuel ts) cands
    { clusters := [], coreMap := [], unC := cKeys ts, unM := mKeys ts }

/-- Part_two core cluster formation with the canonical candidate order (the
source sorts by degree and then shuffles, so every order of all keys is a
legitimate run; the key order is the canonical instantiation). -/
def find_clusters_core (ts : Txs) : CoreState := coreRun ts (cKeys ts ++ mKeys ts)

/-! ### Mode (a): the duplication pass (Part_two lines 128-193) -/

/-- The opposite-side member list consulted when counting an entity's
neighbours inside a cluster. -/
def oppMembers (isC : Bool) (cl : Cluster) : List String :=
  if isC then cl.merchants else cl.cardholders

/-- Insert the entity into its own side of the cluster. -/
def addSide (isC : Bool) (e : String) (cl : Cluster) : Cluster :=
  if isC then { cl with cardholders := insertMem e cl.cardholders }
  else { cl with merchants := insertMem e cl.merchants }

/-- How many of the entity's neighbours are members of the given list. -/
def interCount (nbrs members : List String) : Nat :=
  (nbrs.filter (fun n => decide (n ∈ members))).length

/-- Earliest index of maximal value in a count list (stable descending sort,
position 0), carrying the running index. -/
def argmaxAux : List Nat → Nat → Nat × Nat → Nat × Nat
  | [], _, best => best
  | c :: rest, i, best => argmaxAux rest (i + 1) (if c > best.2 then (i, c) else best)

/-- The primary cluster of Part_two's duplication scan for one entity:
earliest index of maximal interaction count (ascending cluster index is the
canonical encounter order), with its count.  Queried only when some count is
positive. -/
def primaryIdx (isC : Bool) (nbrs : List String) (cls : List Cluster) : Nat × Nat :=
  argmaxAux (cls.map (fun cl => interCount nbrs (oppMembers isC cl))) 0 (0, 0)

/-- The ratio test of Part_two lines 179-181 for a secondary cluster with
count c against primary p and the total neighbour count. -/
abbrev ratioOk (t : ℚ) (p : Nat × Nat) (total c : Nat) : Prop :=
  0 < c ∧ (ratioGe c p.2 t ∨ ratioGe c total t)

/-- Apply one entity's insertions over the cluster list: always into the
primary cluster, and into every other cluster passing the ratio test
(Part_two lines 166-186). -/
def applyDup (isC : Bool) (e : String) (t : ℚ) (p : Nat × Nat) (total : Nat)
    (nbrs : List String) : Nat → List Cluster → List Cluster
  | _, [] => []
  | i, cl :: rest =>
    (if i = p.1 ∨ ratioOk t p total (interCount nbrs (oppMembers isC cl))
     then addSide isC e cl else cl)
      :: applyDup isC e t p total nbrs (i + 1) rest

/-- The neighbour list interaction_map[entity_id] of the duplication phase. -/
def dupNbrs (ts : Txs) (isC : Bool) (e : String) : List String :=
  if isC then cardholder_to_merchants ts e else merchant_to_cardholders ts e

/-- One entity's step of the Part_two duplication phase (lines 137-186):
entities with no neighbours, or whose neighbours belong to no cluster, are
skipped; otherwise the counts are taken against the current, already
partially updated cluster list. -/
def dupStep (ts : Txs) (t : ℚ) (isC : Bool) (e : String) (cls : List Cluster) :
    List Cluster :=
  if dupNbrs ts isC e = [] then cls
  else if cls.all (fun cl => interCount (dupNbrs ts isC e) (oppMembers isC cl) == 0) then cls
  else applyDup isC e t (primaryIdx isC (dupNbrs ts isC e) cls)
    (dupNbrs ts isC e).length (dupNbrs ts isC e) 0 cls

/-- The full duplication pass: all cardholders in order, then all merchants
in order, mutating the cluster list as it goes (Part_two lines 133-136). -/
def dupPass (ts : Txs) (t : ℚ) (cOrd mOrd : List String) (cls : List Cluster) :
    List Cluster :=
  mOrd.foldl (fun acc m => dupStep ts t false m acc)
    (cOrd.foldl (fun acc c => dupStep ts t true c acc) cls)

/-- Part_two.find_clusters_with_duplication: core formation, then the
duplication pass over cardholders and merchants in canonical key order. -/
def find_clusters_with_duplication (ts : Txs) (t : ℚ) : List Cluster :=
  dupPass ts t (cKeys ts) (mKeys ts) (find_clusters_core ts).clusters

/-- The cardholder members of cluster index i (empty when out of range). -/
def cardAt (cls : List Cluster) (i : Nat) : List String :=
  ((cls.get? i).map Cluster.cardholders).getD []

/-- The merchant members of cluster index i (empty when out of range). -/
def merchAt (cls : List Cluster) (i : Nat) : List String :=
  ((cls.get? i).map Cluster.merchants).getD []

/-- The total number of (entity, cluster) membership pairs of a cluster
list whose member lists are duplicate-free. -/
def totalPairs (cls : List Cluster) : Nat :=
  (cls.map (fun cl => cl.merchants.length + cl.cardholders.length)).sum

/-- The cluster state just before a given cardholder's duplication step in
the canonical pass order. -/
def dupMidC (ts : Txs) (t : ℚ) (cls : List Cluster) (e : String) : List Cluster :=
  ((cKeys ts).takeWhile (fun x => x != e)).foldl (fun acc c => dupStep ts t true c acc) cls

/-- The cluster state after the whole cardholder loop. -/
def dupPassC (ts : Txs) (t : ℚ) (cls : List Cluster) : List Cluster :=
  (cKeys ts).foldl (fun acc c => dupStep ts t true c acc) cls

/-- The cluster state just before a given merchant's duplication step in the
canonical pass order. -/
def dupMidM (ts : Txs) (t : ℚ) (cls : List Cluster) (e : String) : List Cluster :=
  ((mKeys ts).takeWhile (fun x => x != e)).foldl (fun acc m => dupStep ts t false m acc)
    (dupPassC ts t cls)

/-- Monotone extension of core-assignment maps: every binding of the first
map is a binding of the second. -/
def mapExtends (m₁ m₂ : List (String × Nat)) : Prop :=
  ∀ e i, lookupCore m₁ e = some i → lookupCore m₂ e = some i

/-- Invariant of one breadth-first expansion (proof device): every core
assignment points into an already finished cluster on the entity's own side,
or into the growing cluster cid; and the unassigned pools are exactly the
keys without an assignment. -/
def BfsInv (ts : Txs) (clusters : List Cluster) (cid : Nat) (st : BfsState) : Prop :=
  (∀ x j, lookupCore st.coreMap x = some j →
    (j < clusters.length ∧
      ((startsC x = true ∧ x ∈ cardAt clusters j) ∨
       (startsM x = true ∧ x ∈ merchAt clusters j))) ∨
    (j = cid ∧ ((startsC x = true ∧ x ∈ st.cc) ∨ (startsM x = true ∧ x ∈ st.cm)))) ∧
  (∀ x, x ∈ st.unC ↔ x ∈ cKeys ts ∧ lookupCore st.coreMap x = none) ∧
  (∀ x, x ∈ st.unM ↔ x ∈ mKeys ts ∧ lookupCore st.coreMap x = none) ∧
  st.unC.Nodup ∧ st.unM.Nodup

/-- Invariant of the outer core-formation loop (proof device). -/
def OuterInv (ts : Txs) (st : CoreState) : Prop :=
  (∀ x j, lookupCore st.coreMap x = some j →
    j < st.clusters.length ∧
      ((startsC x = true ∧ x ∈ cardAt st.clusters j) ∨
       (startsM x = true ∧ x ∈ merchAt st.clusters j))) ∧
  (∀ x, x ∈ st.unC ↔ x ∈ cKeys ts ∧ lookupCore st.coreMap x = none) ∧
  (∀ x, x ∈ st.unM ↔ x ∈ mKeys ts ∧ lookupCore st.coreMap x = none) ∧
  st.unC.Nodup ∧ st.unM.Nodup

/-!
### Concrete instances used by counterexamples and witnesses
-/

/-- A bipartite graph on which the evolving-state duplication pass of
Part_two is not threshold-monotone: CE's extra duplication into the first
cluster at the lower threshold raises Mm's primary count and suppresses
three of Mm's duplications. -/
def tsMono : Txs :=
  [("CE", "MP1"), ("CE", "MP2"), ("CE", "MP3"), ("CE", "MP4"), ("CE", "MP5"),
   ("CE", "MP6"), ("CE", "MP7"), ("CE", "MA1"), ("CE", "MA2"), ("CE", "Mm"),
   ("CQ1", "MP1"), ("CQ1", "MP2"), ("CQ1", "MP3"), ("CQ1", "MP4"), ("CQ1", "MP5"),
   ("CQ1", "MP6"), ("CQ1", "MP7"),
   ("CQ2", "MP1"), ("CQ2", "MP2"), ("CQ2", "MP3"), ("CQ2", "MP4"), ("CQ2", "MP5"),
   ("CQ2", "MP6"), ("CQ2", "MP7"),
   ("CQ3", "MP1"), ("CQ3", "MP2"), ("CQ3", "MP3"), ("CQ3", "MP4"), ("CQ3", "MP5"),
   ("CQ3", "MP6"), ("CQ3", "MP7"),
   ("CR1", "MA1"), ("CR1", "MA2"), ("CR2", "MA1"), ("CR2", "MA2"),
   ("CR3", "MA1"), ("CR3", "MA2"),
   ("CA1", "Mm"), ("CA2", "Mm"),
   ("CB", "Mm"), ("CB", "MB1"), ("CB", "MB2"), ("CB", "MB3"), ("CB", "MB4")]

/-- Input clusters for the monotonicity counterexample. -/
def clsMono : List Cluster :=
  [⟨["MA1", "MA2", "Mm"], ["CA1", "CA2", "CR1", "CR2", "CR3"]⟩,
   ⟨["MB1", "MB2", "MB3", "MB4"], ["CB"]⟩,
   ⟨[], ["CE"]⟩,
   ⟨["MP1", "MP2", "MP3", "MP4", "MP5", "MP6", "MP7"], ["CQ1", "CQ2", "CQ3"]⟩]

/-- A bipartite graph on which re-running the Part_two duplication pass over
its own output inserts a new membership pair: the first pass duplicates C2
and the merchants into both clusters, which raises C1's count towards the
second cluster on the re-run. -/
def tsRerun : Txs :=
  [("C1", "M1"), ("C1", "M2"), ("C1", "M3"), ("C1", "M4"), ("C2", "M1"), ("C2", "M4")]

/-- Input clusters for the idempotence counterexample. -/
def clsRerun : List Cluster := [⟨["M1", "M2", "M3"], ["C1"]⟩, ⟨["M4"], ["C2"]⟩]

/-- The two-merchant star used by the mode (b) primary-insertion
counterexample. -/
def tsStar : Txs := [("C1", "M1"), ("C1", "M2")]

/-!
## Theorems

From here on the file contains only proofs about the definitions above.
-/

section BasicLemmas

theorem mem_insertMem {x e : String} {l : List String} :
    x ∈ insertMem e l ↔ x ∈ l ∨ x = e := by
  unfold insertMem
  by_cases h : e ∈ l
  · simp only [if_pos h]
    constructor
    · exact Or.inl
    · rintro (hx | rfl) <;> assumption
  · simp only [if_neg h, List.mem_append, List.mem_singleton]

theorem insertMem_subset {e : String} {l : List String} : l ⊆ insertMem e l := by
  intro x hx; exact mem_insertMem.mpr (Or.inl hx)

theorem mem_insertMem_self {e : String} {l : List String} : e ∈ insertMem e l := by
  exact mem_insertMem.mpr (Or.inr rfl)

theorem nodup_insertMem {e : String} {l : List String} (h : l.Nodup) :
    (insertMem e l).Nodup := by
  unfold insertMem
  by_cases he : e ∈ l
  · simpa [he]
  · simpa [he, List.nodup_append] using h

private theorem firstDedup_go_mem {l : List String} {acc : List String} {x : String} :
    x ∈ l.foldl (fun acc v => insertMem v acc) acc ↔ x ∈ acc ∨ x ∈ l := by
  induction l generalizing acc with
  | nil => simp
  | cons a as ih =>
    simp only [List.foldl_cons, ih, mem_insertMem, List.mem_cons]
    tauto

theorem mem_firstDedup {l : List String} {x : String} :
    x ∈ firstDedup l ↔ x ∈ l := by
  unfold firstDedup
  rw [firstDedup_go_mem]
  simp

private theorem firstDedup_go_nodup {l : List String} {acc : List String}
    (h : acc.Nodup) : (l.foldl (fun acc v => insertMem v acc) acc).Nodup := by
  induction l generalizing acc with
  | nil => simpa
  | cons a as ih => exact ih (nodup_insertMem h)

theorem firstDedup_nodup {l : List String} : (firstDedup l).Nodup :=
  firstDedup_go_nodup List.nodup_nil

theorem mem_cardholder_to_merchants {ts : Txs} {c m : String} :
    m ∈ cardholder_to_merchants ts c ↔ (c, m) ∈ ts := by
  unfold cardholder_to_merchants
  rw [mem_firstDedup]
  simp only [List.mem_map, List.mem_filter]
  constructor
  · rintro ⟨⟨a, b⟩, ⟨hmem, heq⟩, rfl⟩
    simp only [decide_eq_true_eq] at heq
    subst heq; exact hmem
  · intro h
    exact ⟨(c, m), ⟨h, by simp⟩, rfl⟩

theorem mem_merchant_to_cardholders {ts : Txs} {c m : String} :
    c ∈ merchant_to_cardholders ts m ↔ (c, m) ∈ ts := by
  unfold merchant_to_cardholders
  rw [mem_firstDedup]
  simp only [List.mem_map, List.mem_filter]
  constructor
  · rintro ⟨⟨a, b⟩, ⟨hmem, heq⟩, rfl⟩
    simp only [decide_eq_true_eq] at heq
    subst heq; exact hmem
  · intro h
    exact ⟨(c, m), ⟨h, by simp⟩, rfl⟩

theorem mem_entities {ts : Txs} {x : String} :
    x ∈ entities ts ↔ (∃ p ∈ ts, p.1 = x) ∨ (∃ p ∈ ts, p.2 = x) := by
  unfold entities
  rw [mem_firstDedup]
  simp only [List.mem_append, List.mem_map]

theorem mem_cKeys {ts : Txs} {x : String} :
    x ∈ cKeys ts ↔ ∃ p ∈ ts, p.1 = x := by
  unfold cKeys; rw [mem_firstDedup]; simp [List.mem_map]

theorem mem_mKeys {ts : Txs} {x : String} :
    x ∈ mKeys ts ↔ ∃ p ∈ ts, p.2 = x := by
  unfold mKeys; rw [mem_firstDedup]; simp [List.mem_map]

theorem mem_cardholder_to_merchants_entities {ts : Txs} {e n : String}
    (h : n ∈ cardholder_to_merchants ts e) : n ∈ entities ts := by
  rw [mem_cardholder_to_merchants] at h
  rw [mem_entities]
  exact Or.inr ⟨(e, n), h, rfl⟩

theorem mem_merchant_to_cardholders_entities {ts : Txs} {e n : String}
    (h : n ∈ merchant_to_cardholders ts e) : n ∈ entities ts := by
  rw [mem_merchant_to_cardholders] at h
  rw [mem_entities]
  exact Or.inl ⟨(n, e), h, rfl⟩

theorem cKeys_subset_entities {ts : Txs} {e : String} (h : e ∈ cKeys ts) :
    e ∈ entities ts := by
  rw [mem_cKeys] at h; rw [mem_entities]; exact Or.inl h

theorem mKeys_subset_entities {ts : Txs} {e : String} (h : e ∈ mKeys ts) :
    e ∈ entities ts := by
  rw [mem_mKeys] at h; rw [mem_entities]; exact Or.inr h

theorem mem_entities_iff_keys {ts : Txs} {e : String} :
    e ∈ entities ts ↔ e ∈ cKeys ts ∨ e ∈ mKeys ts := by
  rw [mem_entities, mem_cKeys, mem_mKeys]

/-- The cross-multiplied ratio test agrees with the exact rational form of
the source's float comparison whenever the denominator is positive, which
holds at every division the programs perform. -/
theorem ratioGe_iff_le_div (c d : Nat) (t : ℚ) (hd : 0 < d) :
    ratioGe c d t ↔ t ≤ (c : ℚ) / (d : ℚ) := by
  have hdq : (0 : ℚ) < (d : ℚ) := by exact_mod_cast hd
  have hden : (0 : ℚ) < ((t.den : ℚ)) := by exact_mod_cast t.den_pos
  rw [le_div_iff₀ hdq]
  constructor
  · intro h
    have h' : (t.num : ℚ) * (d : ℚ) ≤ (c : ℚ) * (t.den : ℚ) := by exact_mod_cast h
    calc t * (d : ℚ) = ((t.num : ℚ) / (t.den : ℚ)) * (d : ℚ) := by rw [Rat.num_div_den]
      _ ≤ (c : ℚ) := by rw [div_mul_eq_mul_div, div_le_iff₀ hden]; exact h'
  · intro h
    have h' : (t.num : ℚ) * (d : ℚ) ≤ (c : ℚ) * (t.den : ℚ) := by
      rw [← div_le_iff₀ hden, ← div_mul_eq_mul_div, Rat.num_div_den]
      exact h
    exact_mod_cast h'

end BasicLemmas

section InputHandling

/-- Skipping a malformed line is the same as deleting it before loading. -/
theorem load_transactions_eq_on_filtered (lines : List String) :
    load_transactions lines
      = load_transactions (lines.filter (fun l => (tokens l).length == 2)) := by
  induction lines with
  | nil => rfl
  | cons a as ih =>
    unfold load_transactions at ih ⊢
    simp only [List.filter_cons]
    cases h : tokens a with
    | nil => simpa [List.filterMap_cons, h] using ih
    | cons x xs =>
      cases xs with
      | nil => simpa [List.filterMap_cons, h] using ih
      | cons y ys =>
        cases ys with
        | nil => simpa [List.filterMap_cons, h] using ih
        | cons z zs => simpa [List.filterMap_cons, h] using ih

end InputHandling

section LabelPropLemmas

theorem bestLabel_keep {cnt : String → Nat} {a : String} :
    ∀ (l : List String), (∀ x ∈ l, cnt x ≤ cnt a) →
      bestLabel cnt l (a, cnt a) = (a, cnt a) := by
  intro l
  induction l with
  | nil => intro _; rfl
  | cons x xs ih =>
    intro h
    have hx : ¬ (cnt x > cnt a) := not_lt.mpr (h x (List.mem_cons_self x xs))
    simp only [bestLabel, if_neg hx]
    exact ih (fun y hy => h y (List.mem_cons_of_mem x hy))

theorem bestLabel_snd_ge {cnt : String → Nat} :
    ∀ (l : List String) (b : String × Nat),
      b.2 ≤ (bestLabel cnt l b).2 ∧ ∀ x ∈ l, cnt x ≤ (bestLabel cnt l b).2 := by
  intro l
  induction l with
  | nil => intro b; exact ⟨le_refl _, by simp⟩
  | cons x xs ih =>
    intro b
    simp only [bestLabel]
    by_cases hx : cnt x > b.2
    · simp only [if_pos hx]
      obtain ⟨h1, h2⟩ := ih (x, cnt x)
      refine ⟨le_trans (le_of_lt hx) h1, ?_⟩
      intro y hy
      rcases List.mem_cons.mp hy with rfl | hy'
      · exact h1
      · exact h2 y hy'
    · simp only [if_neg hx]
      obtain ⟨h1, h2⟩ := ih b
      refine ⟨h1, ?_⟩
      intro y hy
      rcases List.mem_cons.mp hy with rfl | hy'
      · exact le_trans (not_lt.mp hx) h1
      · exact h2 y hy'

theorem bestLabel_sound {cnt : String → Nat} :
    ∀ (l : List String) (b : String × Nat),
      bestLabel cnt l b = b ∨
        ((bestLabel cnt l b).1 ∈ l ∧ (bestLabel cnt l b).2 = cnt (bestLabel cnt l b).1) := by
  intro l
  induction l with
  | nil => intro b; exact Or.inl rfl
  | cons x xs ih =>
    intro b
    simp only [bestLabel]
    by_cases hx : cnt x > b.2
    · simp only [if_pos hx]
      rcases ih (x, cnt x) with h | ⟨h1, h2⟩
      · rw [h]; exact Or.inr ⟨List.mem_cons_self x xs, rfl⟩
      · exact Or.inr ⟨List.mem_cons_of_mem x h1, h2⟩
    · simp only [if_neg hx]
      rcases ih b with h | ⟨h1, h2⟩
      · exact Or.inl h
      · exact Or.inr ⟨List.mem_cons_of_mem x h1, h2⟩

theorem foldl_insertMem_extends :
    ∀ (l acc : List String), ∃ extra,
      l.foldl (fun a v => insertMem v a) acc = acc ++ extra := by
  intro l
  induction l with
  | nil => intro acc; exact ⟨[], by simp⟩
  | cons a as ih =>
    intro acc
    simp only [List.foldl_cons]
    by_cases ha : a ∈ acc
    · have h : insertMem a acc = acc := by simp [insertMem, ha]
      rw [h]
      exact ih acc
    · have h : insertMem a acc = acc ++ [a] := by simp [insertMem, ha]
      rw [h]
      obtain ⟨ex, hx⟩ := ih (acc ++ [a])
      exact ⟨[a] ++ ex, by rw [hx, List.append_assoc]⟩

theorem firstDedup_cons (e : String) (rest : List String) :
    ∃ extra, firstDedup (e :: rest) = e :: extra := by
  unfold firstDedup
  simp only [List.foldl_cons]
  have h0 : insertMem e [] = [e] := rfl
  rw [h0]
  obtain ⟨ex, hx⟩ := foldl_insertMem_extends rest [e]
  exact ⟨ex, by rw [hx]; rfl⟩

theorem firstDedup_eq_nil_iff {l : List String} : firstDedup l = [] ↔ l = [] := by
  constructor
  · intro h
    cases l with
    | nil => rfl
    | cons a as =>
      obtain ⟨ex, hx⟩ := firstDedup_cons a as
      rw [hx] at h
      exact absurd h (List.cons_ne_nil _ _)
  · rintro rfl; rfl

/-- The winning label of a nonempty vote list has maximal vote count. -/
theorem pickWinner_count_max {vs : List String} {d : String} (hne : vs ≠ []) :
    ∀ l, vs.count l ≤ vs.count (pickWinner vs d) := by
  intro l
  cases h : firstDedup vs with
  | nil => exact absurd (firstDedup_eq_nil_iff.mp h) hne
  | cons k ks =>
    unfold pickWinner
    rw [h]
    set best := bestLabel (fun x => vs.count x) ks (k, vs.count k) with hbest
    have hsnd : best.2 = vs.count best.1 := by
      rcases @bestLabel_sound (fun x => vs.count x) ks (k, vs.count k) with heq | ⟨_, h2⟩
      · rw [← hbest] at heq; rw [heq]
      · exact h2
    have hge := @bestLabel_snd_ge (fun x => vs.count x) ks (k, vs.count k)
    by_cases hl : vs.count l = 0
    · rw [hl]; exact Nat.zero_le _
    · have hlm : l ∈ vs := by
        by_contra hc
        exact hl (List.count_eq_zero_of_not_mem hc)
      have hlf : l ∈ firstDedup vs := mem_firstDedup.mpr hlm
      rw [h] at hlf
      rcases List.mem_cons.mp hlf with rfl | hlk
      · calc vs.count l ≤ best.2 := hge.1
          _ = vs.count best.1 := hsnd
      · calc vs.count l ≤ best.2 := hge.2 l hlk
          _ = vs.count best.1 := hsnd

/-- The winner of a nonempty vote list is one of the votes. -/
theorem pickWinner_mem {vs : List String} {d : String} (hne : vs ≠ []) :
    pickWinner vs d ∈ vs := by
  cases h : firstDedup vs with
  | nil => exact absurd (firstDedup_eq_nil_iff.mp h) hne
  | cons k ks =>
    unfold pickWinner
    rw [h]
    show (bestLabel (fun x => vs.count x) ks (k, vs.count k)).1 ∈ vs
    rcases @bestLabel_sound (fun x => vs.count x) ks (k, vs.count k) with heq | ⟨h1, _⟩
    · rw [heq]
      have : k ∈ firstDedup vs := by rw [h]; exact List.mem_cons_self k ks
      exact mem_firstDedup.mp this
    · have : (bestLabel (fun x => vs.count x) ks (k, vs.count k)).1 ∈ firstDedup vs := by
        rw [h]; exact List.mem_cons_of_mem k h1
      exact mem_firstDedup.mp this

theorem filterMap_snapFn_id {ts : Txs} {l : List String}
    (h : ∀ x ∈ l, x ∈ entities ts) :
    l.filterMap (snapFn ts (fun x => x)) = l := by
  induction l with
  | nil => rfl
  | cons a as ih =>
    have ha : a ∈ entities ts := h a (List.mem_cons_self a as)
    simp only [List.filterMap_cons, snapFn, if_pos ha]
    rw [ih (fun x hx => h x (List.mem_cons_of_mem a hx))]

theorem snapFn_getD_self {ts : Txs} {e : String} :
    (snapFn ts (fun x => x) e).getD e = e := by
  unfold snapFn
  by_cases h : e ∈ entities ts <;> simp [h]

/-- Vote collection over the identity labelling: the self label followed by
the neighbour lists themselves. -/
theorem votesWith_id (ts : Txs) (e : String) :
    votesWith ts (fun x => x) e =
      (if e ∈ cKeys ts then e :: cardholder_to_merchants ts e else [])
        ++ (if e ∈ mKeys ts then e :: merchant_to_cardholders ts e else []) := by
  unfold votesWith
  rw [snapFn_getD_self,
    filterMap_snapFn_id (fun x hx => mem_cardholder_to_merchants_entities hx),
    filterMap_snapFn_id (fun x hx => mem_merchant_to_cardholders_entities hx)]

theorem count_branch_le {e l : String} {xs : List String} (hx : xs.Nodup)
    (hne : l ≠ e) : (e :: xs).count l ≤ (e :: xs).count e := by
  have h1 : (e :: xs).count l = xs.count l := by
    rw [List.count_cons]
    simp [hne, Ne.symm hne]
  have h2 : xs.count l ≤ 1 := List.nodup_iff_count_le_one.mp hx l
  have h3 : 1 ≤ (e :: xs).count e := by
    rw [List.count_cons]
    simp
  omega

theorem count_votes_id_le {ts : Txs} {e l : String} (hne : l ≠ e) :
    (votesWith ts (fun x => x) e).count l ≤ (votesWith ts (fun x => x) e).count e := by
  rw [votesWith_id]
  rw [List.count_append, List.count_append]
  have hC : (if e ∈ cKeys ts then e :: cardholder_to_merchants ts e else []).count l
      ≤ (if e ∈ cKeys ts then e :: cardholder_to_merchants ts e else []).count e := by
    by_cases hc : e ∈ cKeys ts
    · simp only [if_pos hc]
      exact count_branch_le firstDedup_nodup hne
    · simp [hc]
  have hM : (if e ∈ mKeys ts then e :: merchant_to_cardholders ts e else []).count l
      ≤ (if e ∈ mKeys ts then e :: merchant_to_cardholders ts e else []).count e := by
    by_cases hm : e ∈ mKeys ts
    · simp only [if_pos hm]
      exact count_branch_le firstDedup_nodup hne
    · simp [hm]
  omega

/-- The winner over the identity labelling is the entity's own label:
the self vote is inserted first, so it wins every tie, and no other label can
outnumber it. -/
theorem pickWinner_votes_id (ts : Txs) (e : String) :
    pickWinner (votesWith ts (fun x => x) e) e = e := by
  by_cases hmem : votesWith ts (fun x => x) e = []
  · rw [hmem]
    rfl
  · have hhead : ∃ rest, votesWith ts (fun x => x) e = e :: rest := by
      rw [votesWith_id] at hmem ⊢
      by_cases hc : e ∈ cKeys ts
      · simp only [if_pos hc, List.cons_append]
        exact ⟨_, rfl⟩
      · by_cases hm : e ∈ mKeys ts
        · simp only [if_neg hc, if_pos hm, List.nil_append]
          exact ⟨_, rfl⟩
        · simp [hc, hm] at hmem
    obtain ⟨rest, hrest⟩ := hhead
    obtain ⟨extra, hex⟩ := firstDedup_cons e rest
    unfold pickWinner
    rw [hrest, hex]
    show (bestLabel (fun x => (e :: rest).count x) extra (e, (e :: rest).count e)).1 = e
    have hkeep : bestLabel (fun x => (e :: rest).count x) extra (e, (e :: rest).count e)
        = (e, (e :: rest).count e) := by
      apply bestLabel_keep
      intro x hx
      by_cases hxe : x = e
      · rw [hxe]
      · have hc := @count_votes_id_le ts e x hxe
        rw [hrest] at hc
        exact hc
    rw [hkeep]

/-- Every round of mode (b) label propagation leaves every entity's label
unchanged: labels never propagate because the self vote is counted first and
all round-0 labels are distinct. -/
theorem labelAt_eq_self (ts : Txs) : ∀ (k : Nat) (e : String), labelAt ts k e = e := by
  intro k
  induction k with
  | zero => intro e; rfl
  | succ k ih =>
    intro e
    have hfun : (fun x => labelAt ts k x) = fun x => x := funext ih
    show pickWinner (votesWith ts (fun x => labelAt ts k x) e) e = e
    rw [hfun]
    exact pickWinner_votes_id ts e

end LabelPropLemmas

section ClaimC4

/-- C4: the two adjacency mappings built by create_interaction_graphs are
symmetric (B is a merchant of A iff A is a cardholder of B, both iff the
pair was observed), and they depend only on the set of distinct pairs:
inputs with the same distinct interactions give the same mappings. -/
theorem C4_adjacency_symmetry_and_idempotence :
    (∀ (ts : Txs) (a b : String),
      b ∈ cardholder_to_merchants ts a ↔ a ∈ merchant_to_cardholders ts b) ∧
    (∀ (ts₁ ts₂ : Txs), (∀ p, p ∈ ts₁ ↔ p ∈ ts₂) → ∀ (a b : String),
      (b ∈ cardholder_to_merchants ts₁ a ↔ b ∈ cardholder_to_merchants ts₂ a) ∧
      (a ∈ merchant_to_cardholders ts₁ b ↔ a ∈ merchant_to_cardholders ts₂ b)) := by
  constructor
  · intro ts a b
    rw [mem_cardholder_to_merchants, mem_merchant_to_cardholders]
  · intro ts₁ ts₂ hset a b
    constructor
    · rw [mem_cardholder_to_merchants, mem_cardholder_to_merchants]
      exact hset (a, b)
    · rw [mem_merchant_to_cardholders, mem_merchant_to_cardholders]
      exact hset (a, b)

/-- Witness for C4 at a concrete input: a duplicated pair does not change
the adjacency mappings, and symmetry holds on it. -/
theorem C4_adjacency_symmetry_and_idempotence_witness :
    ("M1" ∈ cardholder_to_merchants [("C1", "M1")] "C1" ↔
      "C1" ∈ merchant_to_cardholders [("C1", "M1")] "M1") ∧
    ("M1" ∈ cardholder_to_merchants [("C1", "M1"), ("C1", "M1")] "C1" ↔
      "M1" ∈ cardholder_to_merchants [("C1", "M1")] "C1") :=
  ⟨C4_adjacency_symmetry_and_idempotence.1 [("C1", "M1")] "C1" "M1",
   (C4_adjacency_symmetry_and_idempotence.2 [("C1", "M1"), ("C1", "M1")] [("C1", "M1")]
     (fun p => by simp) "C1" "M1").1⟩

end ClaimC4

section ClaimC5

/-- C5: Part_one.load_transactions skips lines whose token count is not two
and its output equals the output on the cleaned input; but Part_three's
Phase 1 reader (c, m = line.strip().split()) raises on the very same
malformed line, aborting the run instead of skipping. -/
theorem C5_part_one_skips_but_part_three_aborts :
    load_transactions ["C1 M1", "A B C", "C2 M2"] = [("C1", "M1"), ("C2", "M2")] ∧
    (∀ lines : List String,
      load_transactions lines
        = load_transactions (lines.filter (fun l => (tokens l).length == 2))) ∧
    loadStrict ["C1 M1", "A B C", "C2 M2"] = Except.error "A B C" := by
  refine ⟨by decide, load_transactions_eq_on_filtered, by rfl⟩

end ClaimC5

section DupGrowth

theorem cardholders_addSide {isC : Bool} {e : String} {cl : Cluster} {x : String}
    (h : x ∈ cl.cardholders) : x ∈ (addSide isC e cl).cardholders := by
  unfold addSide
  cases isC with
  | true => simpa using insertMem_subset h
  | false => simpa using h

theorem merchants_addSide {isC : Bool} {e : String} {cl : Cluster} {x : String}
    (h : x ∈ cl.merchants) : x ∈ (addSide isC e cl).merchants := by
  unfold addSide
  cases isC with
  | true => simpa using h
  | false => simpa using insertMem_subset h

theorem applyDup_get? {isC : Bool} {e : String} {t : ℚ} {p : Nat × Nat}
    {total : Nat} {nbrs : List String} :
    ∀ (cls : List Cluster) (i j : Nat),
      (applyDup isC e t p total nbrs i cls).get? j = (cls.get? j).map (fun cl =>
        if i + j = p.1 ∨ ratioOk t p total (interCount nbrs (oppMembers isC cl))
        then addSide isC e cl else cl) := by
  intro cls
  induction cls with
  | nil => intro i j; simp [applyDup]
  | cons cl rest ih =>
    intro i j
    cases j with
    | zero => simp [applyDup]
    | succ j' =>
      simp only [applyDup, List.get?_cons_succ]
      rw [ih (i + 1) j']
      have : i + 1 + j' = i + (j' + 1) := by omega
      rw [this]

/-- A duplication step either skips the entity or applies the per-cluster
insertion map. -/
theorem dupStep_eq_or (ts : Txs) (t : ℚ) (isC : Bool) (e : String)
    (cls : List Cluster) :
    dupStep ts t isC e cls = cls ∨
      dupStep ts t isC e cls = applyDup isC e t
        (primaryIdx isC (dupNbrs ts isC e) cls)
        (dupNbrs ts isC e).length (dupNbrs ts isC e) 0 cls := by
  unfold dupStep
  split_ifs with h1 h2
  · exact Or.inl rfl
  · exact Or.inl rfl
  · exact Or.inr rfl

theorem cardAt_applyDup_mono {isC : Bool} {e : String} {t : ℚ} {p : Nat × Nat}
    {total : Nat} {nbrs : List String} {cls : List Cluster} {j : Nat} {x : String}
    (h : x ∈ cardAt cls j) :
    x ∈ cardAt (applyDup isC e t p total nbrs 0 cls) j := by
  unfold cardAt at h ⊢
  rw [applyDup_get?]
  cases hg : cls.get? j with
  | none => rw [hg] at h; simp at h
  | some cl =>
    rw [hg] at h
    replace h : x ∈ cl.cardholders := h
    show x ∈ (if 0 + j = p.1 ∨ ratioOk t p total (interCount nbrs (oppMembers isC cl))
      then addSide isC e cl else cl).cardholders
    split_ifs with hc
    · exact cardholders_addSide h
    · exact h

theorem merchAt_applyDup_mono {isC : Bool} {e : String} {t : ℚ} {p : Nat × Nat}
    {total : Nat} {nbrs : List String} {cls : List Cluster} {j : Nat} {x : String}
    (h : x ∈ merchAt cls j) :
    x ∈ merchAt (applyDup isC e t p total nbrs 0 cls) j := by
  unfold merchAt at h ⊢
  rw [applyDup_get?]
  cases hg : cls.get? j with
  | none => rw [hg] at h; simp at h
  | some cl =>
    rw [hg] at h
    replace h : x ∈ cl.merchants := h
    show x ∈ (if 0 + j = p.1 ∨ ratioOk t p total (interCount nbrs (oppMembers isC cl))
      then addSide isC e cl else cl).merchants
    split_ifs with hc
    · exact merchants_addSide h
    · exact h

theorem cardAt_dupStep_mono {ts : Txs} {t : ℚ} {isC : Bool} {e : String}
    {cls : List Cluster} {i : Nat} {x : String} (h : x ∈ cardAt cls i) :
    x ∈ cardAt (dupStep ts t isC e cls) i := by
  rcases dupStep_eq_or ts t isC e cls with heq | heq
  · rw [heq]; exact h
  · rw [heq]; exact cardAt_applyDup_mono h

theorem merchAt_dupStep_mono {ts : Txs} {t : ℚ} {isC : Bool} {e : String}
    {cls : List Cluster} {i : Nat} {x : String} (h : x ∈ merchAt cls i) :
    x ∈ merchAt (dupStep ts t isC e cls) i := by
  rcases dupStep_eq_or ts t isC e cls with heq | heq
  · rw [heq]; exact h
  · rw [heq]; exact merchAt_applyDup_mono h

theorem cardAt_foldl_dupStep_mono {ts : Txs} {t : ℚ} {isC : Bool} :
    ∀ (ord : List String) (cls : List Cluster) (i : Nat) (x : String),
      x ∈ cardAt cls i →
        x ∈ cardAt (ord.foldl (fun acc e => dupStep ts t isC e acc) cls) i := by
  intro ord
  induction ord with
  | nil => intro cls i x h; exact h
  | cons e rest ih =>
    intro cls i x h
    simp only [List.foldl_cons]
    exact ih _ i x (cardAt_dupStep_mono h)

theorem merchAt_foldl_dupStep_mono {ts : Txs} {t : ℚ} {isC : Bool} :
    ∀ (ord : List String) (cls : List Cluster) (i : Nat) (x : String),
      x ∈ merchAt cls i →
        x ∈ merchAt (ord.foldl (fun acc e => dupStep ts t isC e acc) cls) i := by
  intro ord
  induction ord with
  | nil => intro cls i x h; exact h
  | cons e rest ih =>
    intro cls i x h
    simp only [List.foldl_cons]
    exact ih _ i x (merchAt_dupStep_mono h)

theorem cardAt_dupPass_mono {ts : Txs} {t : ℚ} {cOrd mOrd : List String}
    {cls : List Cluster} {i : Nat} {x : String} (h : x ∈ cardAt cls i) :
    x ∈ cardAt (dupPass ts t cOrd mOrd cls) i := by
  unfold dupPass
  exact cardAt_foldl_dupStep_mono mOrd _ i x (cardAt_foldl_dupStep_mono cOrd cls i x h)

theorem merchAt_dupPass_mono {ts : Txs} {t : ℚ} {cOrd mOrd : List String}
    {cls : List Cluster} {i : Nat} {x : String} (h : x ∈ merchAt cls i) :
    x ∈ merchAt (dupPass ts t cOrd mOrd cls) i := by
  unfold dupPass
  exact merchAt_foldl_dupStep_mono mOrd _ i x (merchAt_foldl_dupStep_mono cOrd cls i x h)

end DupGrowth

section Phase3Growth

theorem coreCard3_mem_cardholders3 {ts : Txs} {R : Nat} {t : ℚ} {e l : String}
    (h : coreCard3 ts R e l) : e ∈ cardholders3 ts R t l := by
  unfold cardholders3
  rw [List.mem_filter]
  refine ⟨h.1, ?_⟩
  simp only [decide_eq_true_eq]
  exact Or.inl h

theorem coreMerch3_mem_merchants3 {ts : Txs} {R : Nat} {t : ℚ} {e l : String}
    (h : coreMerch3 ts R e l) : e ∈ merchants3 ts R t l := by
  unfold merchants3
  rw [List.mem_filter]
  refine ⟨h.1, ?_⟩
  simp only [decide_eq_true_eq]
  exact Or.inl h

end Phase3Growth

section ClaimC10

/-- C10: cluster membership only grows during the duplication phase.  For
mode (a), every (entity, cluster) pair present in the input clusters of the
Part_two duplication pass is still present in its output, for any entity
processing orders; for mode (b), every core pair of the aggregated
final-snapshot clusters is present in the final Phase 3 output.  No
operation of either duplication phase removes a member. -/
theorem C10_duplication_phase_only_grows :
    (∀ (ts : Txs) (t : ℚ) (cOrd mOrd : List String) (cls : List Cluster)
        (i : Nat) (x : String),
      (x ∈ cardAt cls i → x ∈ cardAt (dupPass ts t cOrd mOrd cls) i) ∧
      (x ∈ merchAt cls i → x ∈ merchAt (dupPass ts t cOrd mOrd cls) i)) ∧
    (∀ (ts : Txs) (R : Nat) (t : ℚ) (e l : String),
      (coreCard3 ts R e l → e ∈ cardholders3 ts R t l) ∧
      (coreMerch3 ts R e l → e ∈ merchants3 ts R t l)) := by
  constructor
  · intro ts t cOrd mOrd cls i x
    exact ⟨cardAt_dupPass_mono, merchAt_dupPass_mono⟩
  · intro ts R t e l
    exact ⟨coreCard3_mem_cardholders3, coreMerch3_mem_merchants3⟩

/-- Witness for C10 at concrete inputs of both modes. -/
theorem C10_duplication_phase_only_grows_witness :
    ("C1" ∈ cardAt [Cluster.mk ["M1"] ["C1"]] 0 ∧
      "C1" ∈ cardAt (dupPass [("C1", "M1")] (mkRat 1 2)
        (cKeys [("C1", "M1")]) (mKeys [("C1", "M1")]) [Cluster.mk ["M1"] ["C1"]]) 0) ∧
    (coreCard3 [("C1", "M1")] 1 "C1" "C1" ∧
      "C1" ∈ cardholders3 [("C1", "M1")] 1 (mkRat 1 2) "C1") :=
  ⟨⟨by decide,
    (C10_duplication_phase_only_grows.1 [("C1", "M1")] (mkRat 1 2)
      (cKeys [("C1", "M1")]) (mKeys [("C1", "M1")]) [Cluster.mk ["M1"] ["C1"]] 0 "C1").1
      (by decide)⟩,
   ⟨by decide,
    (C10_duplication_phase_only_grows.2 [("C1", "M1")] 1 (mkRat 1 2) "C1" "C1").1
      (by decide)⟩⟩

end ClaimC10

section ClaimC8

/-- C8 as stated is false: re-running the Part_two duplication pass with its
own output as the input clusters can insert a membership pair that was not
present.  On tsRerun with threshold 2/5, the first pass leaves C1 out of the
second cluster, but the duplicates the first pass added raise C1's
interaction count with that cluster, so the second pass inserts C1 there. -/
theorem C8_counterexample_rerun_adds_pair :
    "C1" ∉ cardAt (dupPass tsRerun (mkRat 2 5) (cKeys tsRerun) (mKeys tsRerun) clsRerun) 1 ∧
    "C1" ∈ cardAt (dupPass tsRerun (mkRat 2 5) (cKeys tsRerun) (mKeys tsRerun)
      (dupPass tsRerun (mkRat 2 5) (cKeys tsRerun) (mKeys tsRerun) clsRerun)) 1 := by
  decide

/-- C8 amended: re-running the Duplication Engine on its own output never
removes a membership pair (the re-run result contains the first run's
entire output), but new secondary assignments can appear. -/
theorem C8_amended_rerun_inflationary :
    ∀ (ts : Txs) (t : ℚ) (cOrd mOrd : List String) (cls : List Cluster)
      (i : Nat) (x : String),
      (x ∈ cardAt (dupPass ts t cOrd mOrd cls) i →
        x ∈ cardAt (dupPass ts t cOrd mOrd (dupPass ts t cOrd mOrd cls)) i) ∧
      (x ∈ merchAt (dupPass ts t cOrd mOrd cls) i →
        x ∈ merchAt (dupPass ts t cOrd mOrd (dupPass ts t cOrd mOrd cls)) i) := by
  intro ts t cOrd mOrd cls i x
  exact ⟨cardAt_dupPass_mono, merchAt_dupPass_mono⟩

/-- Witness for the amended C8 at the concrete re-run instance. -/
theorem C8_amended_rerun_inflationary_witness :
    "C1" ∈ cardAt (dupPass tsRerun (mkRat 2 5) (cKeys tsRerun) (mKeys tsRerun) clsRerun) 0 ∧
    "C1" ∈ cardAt (dupPass tsRerun (mkRat 2 5) (cKeys tsRerun) (mKeys tsRerun)
      (dupPass tsRerun (mkRat 2 5) (cKeys tsRerun) (mKeys tsRerun) clsRerun)) 0 :=
  ⟨by decide,
   (C8_amended_rerun_inflationary tsRerun (mkRat 2 5) (cKeys tsRerun) (mKeys tsRerun)
     clsRerun 0 "C1").1 (by decide)⟩

end ClaimC8

section ClaimC7

/-- C7 as stated is false: because the Part_two duplication pass counts
against the evolving cluster list, lowering the threshold can lower the
total number of membership pairs.  On tsMono with the clsMono input
clusters, threshold 2/5 yields 26 pairs while the larger threshold 1/2
yields 28. -/
theorem C7_counterexample_lower_threshold_fewer_pairs :
    totalPairs (dupPass tsMono (mkRat 2 5) (cKeys tsMono) (mKeys tsMono) clsMono)
      < totalPairs (dupPass tsMono (mkRat 1 2) (cKeys tsMono) (mKeys tsMono) clsMono) := by
  decide

end ClaimC7

section Phase3Lemmas

theorem mem_candLabels_iff {ts : Txs} {R : Nat} {nbrs : List String} {l : String} :
    l ∈ candLabels ts R nbrs ↔ ∃ n ∈ nbrs, n ∈ entities ts ∧ labelAt ts R n = l := by
  unfold candLabels
  rw [mem_firstDedup]
  simp only [List.mem_map, List.mem_filter, decide_eq_true_eq]
  constructor
  · rintro ⟨n, ⟨hn, hne⟩, rfl⟩
    exact ⟨n, hn, hne, rfl⟩
  · rintro ⟨n, hn, hne, rfl⟩
    exact ⟨n, ⟨hn, hne⟩, rfl⟩

theorem labelCount_pos_iff {ts : Txs} {R : Nat} {nbrs : List String} {l : String} :
    0 < labelCount ts R nbrs l ↔ ∃ n ∈ nbrs, n ∈ entities ts ∧ labelAt ts R n = l := by
  unfold labelCount
  rw [List.length_pos_iff_exists_mem]
  constructor
  · rintro ⟨n, hn⟩
    rw [List.mem_filter] at hn
    obtain ⟨hn1, hn2⟩ := hn
    simp only [decide_eq_true_eq] at hn2
    exact ⟨n, hn1, hn2⟩
  · rintro ⟨n, hn, hmem, hl⟩
    refine ⟨n, ?_⟩
    rw [List.mem_filter]
    exact ⟨hn, by simp only [decide_eq_true_eq]; exact ⟨hmem, hl⟩⟩

theorem labelCount_le_primary3 {ts : Txs} {R : Nat} {nbrs : List String} {l : String}
    (h : 0 < labelCount ts R nbrs l) :
    labelCount ts R nbrs l ≤ (primary3 ts R nbrs).2 := by
  have hmem : l ∈ candLabels ts R nbrs :=
    mem_candLabels_iff.mpr (labelCount_pos_iff.mp h)
  unfold primary3
  cases hc : candLabels ts R nbrs with
  | nil => rw [hc] at hmem; simp at hmem
  | cons k ks =>
    rw [hc] at hmem
    have hge := @bestLabel_snd_ge (labelCount ts R nbrs) ks (k, labelCount ts R nbrs k)
    rcases List.mem_cons.mp hmem with rfl | hlk
    · exact hge.1
    · exact hge.2 l hlk

theorem primary3_snd_pos {ts : Txs} {R : Nat} {nbrs : List String}
    (h : candLabels ts R nbrs ≠ []) : 0 < (primary3 ts R nbrs).2 := by
  cases hc : candLabels ts R nbrs with
  | nil => exact absurd hc h
  | cons k ks =>
    have hk : k ∈ candLabels ts R nbrs := by rw [hc]; exact List.mem_cons_self k ks
    have hkc : 0 < labelCount ts R nbrs k :=
      labelCount_pos_iff.mpr (mem_candLabels_iff.mp hk)
    have := labelCount_le_primary3 hkc
    omega

theorem labelCount_le_length {ts : Txs} {R : Nat} {nbrs : List String} {l : String} :
    labelCount ts R nbrs l ≤ nbrs.length :=
  List.length_filter_le _ _

theorem nbrs_ne_nil_of_labelCount_pos {ts : Txs} {R : Nat} {nbrs : List String}
    {l : String} (h : 0 < labelCount ts R nbrs l) : nbrs ≠ [] := by
  obtain ⟨n, hn, _⟩ := labelCount_pos_iff.mp h
  intro hc
  rw [hc] at hn
  simp at hn

/-- The ratio test is antitone in the threshold (positive denominator). -/
theorem ratioGe_antitone {c d : Nat} {t₁ t₂ : ℚ} (hd : 0 < d) (ht : t₁ ≤ t₂)
    (h : ratioGe c d t₂) : ratioGe c d t₁ := by
  rw [ratioGe_iff_le_div c d t₂ hd] at h
  rw [ratioGe_iff_le_div c d t₁ hd]
  exact le_trans ht h

/-- The Phase 3 duplication test is antitone in the threshold. -/
theorem dupSecondary3_antitone {ts : Txs} {R : Nat} {t₁ t₂ : ℚ}
    {nbrs : List String} {l : String} (ht : t₁ ≤ t₂)
    (h : dupSecondary3 ts R t₂ nbrs l) : dupSecondary3 ts R t₁ nbrs l := by
  obtain ⟨h1, h2, h3, h4⟩ := h
  refine ⟨h1, h2, h3, ?_⟩
  have hp : 0 < (primary3 ts R nbrs).2 := primary3_snd_pos h1
  have hn : 0 < nbrs.length :=
    List.length_pos_of_ne_nil (nbrs_ne_nil_of_labelCount_pos h3)
  rcases h4 with h4 | h4
  · exact Or.inl (ratioGe_antitone hp ht h4)
  · exact Or.inr (ratioGe_antitone hn ht h4)

theorem length_filter_mono {P Q : String → Bool} :
    ∀ l : List String, (∀ x ∈ l, P x = true → Q x = true) →
      (l.filter P).length ≤ (l.filter Q).length := by
  intro l
  induction l with
  | nil => intro _; exact le_refl _
  | cons a as ih =>
    intro h
    have hrec := ih (fun x hx => h x (List.mem_cons_of_mem a hx))
    cases hp : P a with
    | true =>
      have hq : Q a = true := h a (List.mem_cons_self a as) hp
      simp [List.filter_cons, hp, hq]
      omega
    | false =>
      cases hq : Q a with
      | true =>
        simp [List.filter_cons, hp, hq]
        omega
      | false =>
        simpa [List.filter_cons, hp, hq] using hrec

theorem mem_cardholders3_iff {ts : Txs} {R : Nat} {t : ℚ} {e l : String} :
    e ∈ cardholders3 ts R t l ↔ e ∈ entities ts ∧ memCard3 ts R t e l := by
  unfold cardholders3
  rw [List.mem_filter]
  simp only [decide_eq_true_eq]

theorem mem_merchants3_iff {ts : Txs} {R : Nat} {t : ℚ} {e l : String} :
    e ∈ merchants3 ts R t l ↔ e ∈ entities ts ∧ memMerch3 ts R t e l := by
  unfold merchants3
  rw [List.mem_filter]
  simp only [decide_eq_true_eq]

theorem list_map_sum_le {f g : String → Nat} :
    ∀ l : List String, (∀ x ∈ l, f x ≤ g x) → (l.map f).sum ≤ (l.map g).sum := by
  intro l
  induction l with
  | nil => intro _; exact le_refl _
  | cons a as ih =>
    intro h
    simp only [List.map_cons, List.sum_cons]
    have h1 := h a (List.mem_cons_self a as)
    have h2 := ih (fun x hx => h x (List.mem_cons_of_mem a hx))
    omega

end Phase3Lemmas

section ClaimC7Amended

/-- C7 amended: the mode (b) duplication pass, whose counts are taken
against the frozen final snapshot, is threshold-monotone: a lower threshold
never yields fewer (entity, cluster) membership pairs.  (The mode (a) pass,
which counts against the evolving cluster list, violates this; see the
counterexample.) -/
theorem C7_amended_mode_b_threshold_monotone :
    ∀ (ts : Txs) (R : Nat) (t₁ t₂ : ℚ), t₁ ≤ t₂ →
      total3 ts R t₂ ≤ total3 ts R t₁ := by
  intro ts R t₁ t₂ ht
  unfold total3
  apply list_map_sum_le
  intro l _
  have hm : (merchants3 ts R t₂ l).length ≤ (merchants3 ts R t₁ l).length := by
    unfold merchants3
    apply length_filter_mono
    intro x _ hx
    simp only [decide_eq_true_eq] at hx ⊢
    rcases hx with hx | hx
    · exact Or.inl hx
    · exact Or.inr ⟨hx.1, hx.2.1, dupSecondary3_antitone ht hx.2.2⟩
  have hc : (cardholders3 ts R t₂ l).length ≤ (cardholders3 ts R t₁ l).length := by
    unfold cardholders3
    apply length_filter_mono
    intro x _ hx
    simp only [decide_eq_true_eq] at hx ⊢
    rcases hx with hx | hx
    · exact Or.inl hx
    · exact Or.inr ⟨hx.1, hx.2.1, dupSecondary3_antitone ht hx.2.2⟩
  omega

/-- Witness for the amended C7 at a concrete input and threshold pair. -/
theorem C7_amended_mode_b_threshold_monotone_witness :
    (mkRat 2 5 : ℚ) ≤ mkRat 1 2 ∧
    total3 [("C1", "M1"), ("C1", "M2")] 1 (mkRat 1 2)
      ≤ total3 [("C1", "M1"), ("C1", "M2")] 1 (mkRat 2 5) :=
  ⟨by decide,
   C7_amended_mode_b_threshold_monotone [("C1", "M1"), ("C1", "M2")] 1
     (mkRat 2 5) (mkRat 1 2) (by decide)⟩

end ClaimC7Amended

section ClaimC9

/-- C9: mode (b) is deterministic.  Two runs over inputs holding the same
set of distinct interactions (any reordering or duplication of the input
records, the only run-to-run variation) produce identical snapshots at every
round, hence identical final snapshots for any round count. -/
theorem C9_label_propagation_deterministic :
    ∀ (ts₁ ts₂ : Txs) (R : Nat), (∀ p, p ∈ ts₁ ↔ p ∈ ts₂) →
      ∀ x, snapshotAt ts₁ R x = snapshotAt ts₂ R x := by
  intro ts₁ ts₂ R hset x
  unfold snapshotAt
  have hent : x ∈ entities ts₁ ↔ x ∈ entities ts₂ := by
    rw [mem_entities, mem_entities]
    constructor
    · rintro (⟨p, hp, he⟩ | ⟨p, hp, he⟩)
      · exact Or.inl ⟨p, (hset p).mp hp, he⟩
      · exact Or.inr ⟨p, (hset p).mp hp, he⟩
    · rintro (⟨p, hp, he⟩ | ⟨p, hp, he⟩)
      · exact Or.inl ⟨p, (hset p).mpr hp, he⟩
      · exact Or.inr ⟨p, (hset p).mpr hp, he⟩
  by_cases h : x ∈ entities ts₁
  · rw [if_pos h, if_pos (hent.mp h), labelAt_eq_self, labelAt_eq_self]
  · rw [if_neg h, if_neg (fun hh => h (hent.mpr hh))]

/-- Witness for C9: two reorderings of the same interaction set, one with a
duplicated record, agree on the final snapshot. -/
theorem C9_label_propagation_deterministic_witness :
    (∀ p, p ∈ ([("C1", "M1"), ("C2", "M1"), ("C1", "M1")] : Txs)
      ↔ p ∈ ([("C2", "M1"), ("C1", "M1")] : Txs)) ∧
    snapshotAt [("C1", "M1"), ("C2", "M1"), ("C1", "M1")] 5 "C1"
      = snapshotAt [("C2", "M1"), ("C1", "M1")] 5 "C1" :=
  ⟨fun p => by constructor <;> intro h <;> (simp only [List.mem_cons] at h ⊢; tauto),
   C9_label_propagation_deterministic [("C1", "M1"), ("C2", "M1"), ("C1", "M1")]
     [("C2", "M1"), ("C1", "M1")] 5
     (fun p => by constructor <;> intro h <;> (simp only [List.mem_cons] at h ⊢; tauto))
     "C1"⟩

end ClaimC9

section VoteCounting

theorem count_filterMap {f : String → Option String} {l : String} :
    ∀ xs : List String,
      (xs.filterMap f).count l
        = (xs.filter (fun n => decide (f n = some l))).length := by
  intro xs
  induction xs with
  | nil => rfl
  | cons a as ih =>
    cases hf : f a with
    | none =>
      have hd : decide (f a = some l) = false := by rw [hf]; simp
      simp only [List.filterMap_cons, hf, List.filter_cons, hd]
      exact ih
    | some b =>
      by_cases hb : b = l
      · subst hb
        have hd : decide (f a = some b) = true := by rw [hf]; simp
        simp only [List.filterMap_cons, hf, List.filter_cons, hd, if_true,
          List.count_cons, List.length_cons, ih]
        simp
      · have hd : decide (f a = some l) = false := by rw [hf]; simp [hb]
        simp only [List.filterMap_cons, hf, List.filter_cons, hd, List.count_cons, ih]
        have hbeq : (b == l) = false := by simp [hb]
        simp [hbeq, hb]

theorem votesWith_ne_nil {ts : Txs} {lab : String → String} {e : String}
    (he : e ∈ entities ts) : votesWith ts lab e ≠ [] := by
  rcases mem_entities_iff_keys.mp he with hc | hm
  · unfold votesWith
    rw [if_pos hc]
    intro h
    exact absurd (List.append_eq_nil.mp h).1 (List.cons_ne_nil _ _)
  · unfold votesWith
    rw [if_pos hm]
    intro h
    exact absurd (List.append_eq_nil.mp h).2 (List.cons_ne_nil _ _)

end VoteCounting

section ClaimC2

/-- C2: mode (b) round semantics.  The round-0 snapshot assigns every entity
its own id.  For every round, the next label is one of the tallied votes and
attains the maximal vote count; and for an entity appearing on exactly one
side, the tally of any label is one self-vote for the entity's current label
plus one vote per neighbour whose round-k snapshot entry is that label —
neighbours without a snapshot entry contribute nothing. -/
theorem C2_mode_b_round_semantics (ts : Txs) (e : String) (he : e ∈ entities ts) :
    snapshotAt ts 0 e = some e ∧
    ∀ k : Nat,
      labelAt ts (k + 1) e ∈ votesWith ts (fun x => labelAt ts k x) e ∧
      (∀ l, (votesWith ts (fun x => labelAt ts k x) e).count l
        ≤ (votesWith ts (fun x => labelAt ts k x) e).count (labelAt ts (k + 1) e)) ∧
      (e ∈ cKeys ts → e ∉ mKeys ts → ∀ l,
        (votesWith ts (fun x => labelAt ts k x) e).count l
          = (if labelAt ts k e = l then 1 else 0)
            + ((cardholder_to_merchants ts e).filter
                (fun n => decide (snapshotAt ts k n = some l))).length) ∧
      (e ∈ mKeys ts → e ∉ cKeys ts → ∀ l,
        (votesWith ts (fun x => labelAt ts k x) e).count l
          = (if labelAt ts k e = l then 1 else 0)
            + ((merchant_to_cardholders ts e).filter
                (fun n => decide (snapshotAt ts k n = some l))).length) := by
  constructor
  · unfold snapshotAt
    rw [if_pos he]
    rfl
  · intro k
    have hne : votesWith ts (fun x => labelAt ts k x) e ≠ [] := votesWith_ne_nil he
    have hwin : labelAt ts (k + 1) e
        = pickWinner (votesWith ts (fun x => labelAt ts k x) e) e := rfl
    refine ⟨?_, ?_, ?_, ?_⟩
    · rw [hwin]; exact pickWinner_mem hne
    · intro l; rw [hwin]; exact pickWinner_count_max hne l
    · intro hc hm l
      unfold votesWith
      rw [if_pos hc, if_neg hm, List.append_nil]
      have hself : (snapFn ts (fun x => labelAt ts k x) e).getD e = labelAt ts k e := by
        unfold snapFn
        rw [if_pos he]
        rfl
      rw [hself, List.count_cons, count_filterMap]
      have hfe : (cardholder_to_merchants ts e).filter
            (fun n => decide (snapFn ts (fun x => labelAt ts k x) n = some l))
          = (cardholder_to_merchants ts e).filter
            (fun n => decide (snapshotAt ts k n = some l)) := rfl
      rw [hfe]
      by_cases heq : labelAt ts k e = l
      · subst heq
        have hbeq : (labelAt ts k e == labelAt ts k e) = true := by simp
        rw [hbeq, if_pos rfl, if_pos rfl]
        omega
      · rw [if_neg heq]
        have hbeq : (labelAt ts k e == l) = false := by
          simp only [beq_eq_false_iff_ne, ne_eq]
          exact heq
        rw [hbeq]
        simp
    · intro hm hc l
      unfold votesWith
      rw [if_pos hm, if_neg hc, List.nil_append]
      have hself : (snapFn ts (fun x => labelAt ts k x) e).getD e = labelAt ts k e := by
        unfold snapFn
        rw [if_pos he]
        rfl
      rw [hself, List.count_cons, count_filterMap]
      have hfe : (merchant_to_cardholders ts e).filter
            (fun n => decide (snapFn ts (fun x => labelAt ts k x) n = some l))
          = (merchant_to_cardholders ts e).filter
            (fun n => decide (snapshotAt ts k n = some l)) := rfl
      rw [hfe]
      by_cases heq : labelAt ts k e = l
      · subst heq
        have hbeq : (labelAt ts k e == labelAt ts k e) = true := by simp
        rw [hbeq, if_pos rfl, if_pos rfl]
        omega
      · rw [if_neg heq]
        have hbeq : (labelAt ts k e == l) = false := by
          simp only [beq_eq_false_iff_ne, ne_eq]
          exact heq
        rw [hbeq]
        simp

/-- Witness for C2 at a concrete input. -/
theorem C2_mode_b_round_semantics_witness :
    "C1" ∈ entities [("C1", "M1")] ∧ snapshotAt [("C1", "M1")] 0 "C1" = some "C1" :=
  ⟨by decide, (C2_mode_b_round_semantics [("C1", "M1")] "C1" (by decide)).1⟩

end ClaimC2

section ClaimC6

/-- No duplication can pass the ratio test when the threshold exceeds 1:
both compared ratios are at most 1. -/
theorem dupSecondary3_not_of_one_lt {ts : Txs} {R : Nat} {t : ℚ}
    {nbrs : List String} {l : String} (ht : 1 < t)
    (h : dupSecondary3 ts R t nbrs l) : False := by
  obtain ⟨h1, h2, h3, h4⟩ := h
  have hp : 0 < (primary3 ts R nbrs).2 := primary3_snd_pos h1
  have hlen : 0 < nbrs.length :=
    List.length_pos_of_ne_nil (nbrs_ne_nil_of_labelCount_pos h3)
  rcases h4 with h4 | h4
  · rw [ratioGe_iff_le_div _ _ _ hp] at h4
    have hle : ((labelCount ts R nbrs l : ℚ) / ((primary3 ts R nbrs).2 : ℚ)) ≤ 1 := by
      rw [div_le_one (by exact_mod_cast hp)]
      exact_mod_cast labelCount_le_primary3 h3
    exact absurd (le_trans h4 hle) (not_le.mpr ht)
  · rw [ratioGe_iff_le_div _ _ _ hlen] at h4
    have hle : ((labelCount ts R nbrs l : ℚ) / (nbrs.length : ℚ)) ≤ 1 := by
      rw [div_le_one (by exact_mod_cast hlen)]
      exact_mod_cast @labelCount_le_length ts R nbrs l
    exact absurd (le_trans h4 hle) (not_le.mpr ht)

/-- C6 amended: the programs validate neither configuration parameter.  A
run with num_iterations = 0 simply performs no propagation round (the final
snapshot is the round-0 snapshot), and a threshold above the documented
interval (0,1] is used as-is: the run completes, with no duplication at all
because no ratio can reach it.  No ConfigurationError exists anywhere. -/
theorem C6_amended_no_config_validation :
    ∀ (ts : Txs) (t : ℚ) (R : Nat), 1 < t →
      (∀ x, snapshotAt ts 0 x = if x ∈ entities ts then some x else none) ∧
      (∀ e l, (e ∈ cardholders3 ts R t l ↔ coreCard3 ts R e l) ∧
              (e ∈ merchants3 ts R t l ↔ coreMerch3 ts R e l)) := by
  intro ts t R ht
  constructor
  · intro x
    unfold snapshotAt
    by_cases h : x ∈ entities ts <;> simp [h, labelAt]
  · intro e l
    constructor
    · rw [mem_cardholders3_iff]
      constructor
      · rintro ⟨hent, hcore | hdup⟩
        · exact hcore
        · exact absurd hdup.2.2 (fun h => dupSecondary3_not_of_one_lt ht h)
      · intro hcore
        exact ⟨hcore.1, Or.inl hcore⟩
    · rw [mem_merchants3_iff]
      constructor
      · rintro ⟨hent, hcore | hdup⟩
        · exact hcore
        · exact absurd hdup.2.2 (fun h => dupSecondary3_not_of_one_lt ht h)
      · intro hcore
        exact ⟨hcore.1, Or.inl hcore⟩

/-- Witness for the amended C6 at a concrete invalid configuration. -/
theorem C6_amended_no_config_validation_witness :
    (1 : ℚ) < mkRat 2 1 ∧
    ("C1" ∈ cardholders3 [("C1", "M1")] 0 (mkRat 2 1) "C1"
      ↔ coreCard3 [("C1", "M1")] 0 "C1" "C1") :=
  ⟨by decide,
   ((C6_amended_no_config_validation [("C1", "M1")] (mkRat 2 1) 0 (by decide)).2
     "C1" "C1").1⟩

/-- C6 as stated is false: with num_iterations = 0 and threshold 2 — both
outside the documented ranges — the run does not fail before processing; it
reads the input, produces the round-0 snapshot and writes a complete final
cluster output. -/
theorem C6_counterexample_invalid_config_still_runs :
    snapshotAt [("C1", "M1")] 0 "C1" = some "C1" ∧
    clusterIds3 [("C1", "M1")] 0 = ["C1", "M1"] ∧
    cardholders3 [("C1", "M1")] 0 (mkRat 2 1) "C1" = ["C1"] ∧
    merchants3 [("C1", "M1")] 0 (mkRat 2 1) "M1" = ["M1"] ∧
    total3 [("C1", "M1")] 0 (mkRat 2 1) = 2 := by decide

end ClaimC6

section ClaimC1Counterexample

/-- C1 as stated is false for the mode (b) duplication pass: on the star
C1-M1, C1-M2 after one round, C1's candidate clusters are M1 and M2 with the
primary cluster M1, yet C1 is not inserted into M1 (Part_three never inserts
into the primary; the loop starts at the second sorted entry), while the
secondary cluster M2 does receive C1. -/
theorem C1_counterexample_mode_b_skips_primary :
    (primary3 tsStar 1 (cardholder_to_merchants tsStar "C1")).1 = "M1" ∧
    candLabels tsStar 1 (cardholder_to_merchants tsStar "C1") ≠ [] ∧
    "C1" ∉ cardholders3 tsStar 1 (mkRat 1 1) "M1" ∧
    "C1" ∈ cardholders3 tsStar 1 (mkRat 1 1) "M2" := by decide

end ClaimC1Counterexample

section DupStepCharacterisation

theorem dupStep_skip_no_nbrs {ts : Txs} {t : ℚ} {isC : Bool} {e : String}
    {cls : List Cluster} (h : dupNbrs ts isC e = []) :
    dupStep ts t isC e cls = cls := by
  unfold dupStep
  rw [if_pos h]

theorem dupStep_skip_no_counts {ts : Txs} {t : ℚ} {isC : Bool} {e : String}
    {cls : List Cluster}
    (h : ∀ cl ∈ cls, interCount (dupNbrs ts isC e) (oppMembers isC cl) = 0) :
    dupStep ts t isC e cls = cls := by
  unfold dupStep
  by_cases h1 : dupNbrs ts isC e = []
  · rw [if_pos h1]
  · rw [if_neg h1]
    have hall : (cls.all (fun cl =>
        interCount (dupNbrs ts isC e) (oppMembers isC cl) == 0)) = true := by
      rw [List.all_eq_true]
      intro cl hcl
      simpa using h cl hcl
    rw [if_pos hall]

theorem dupStep_eq_applyDup {ts : Txs} {t : ℚ} {isC : Bool} {e : String}
    {cls : List Cluster} (h1 : dupNbrs ts isC e ≠ [])
    (h2 : ¬ ∀ cl ∈ cls, interCount (dupNbrs ts isC e) (oppMembers isC cl) = 0) :
    dupStep ts t isC e cls = applyDup isC e t (primaryIdx isC (dupNbrs ts isC e) cls)
      (dupNbrs ts isC e).length (dupNbrs ts isC e) 0 cls := by
  unfold dupStep
  rw [if_neg h1]
  have hall : (cls.all (fun cl =>
      interCount (dupNbrs ts isC e) (oppMembers isC cl) == 0)) ≠ true := by
    intro hc
    rw [List.all_eq_true] at hc
    exact h2 (fun cl hcl => by simpa using hc cl hcl)
  rw [if_neg hall]

theorem oppMembers_get {cls : List Cluster} {i : Nat} {cl : Cluster} {isC : Bool}
    (h : cls.get? i = some cl) :
    oppMembers isC cl = if isC then merchAt cls i else cardAt cls i := by
  unfold oppMembers merchAt cardAt
  rw [h]
  cases isC <;> simp

theorem cardAt_applyDup_eq {isC : Bool} {e : String} {t : ℚ} {p : Nat × Nat}
    {total : Nat} {nbrs : List String} {cls : List Cluster} {i : Nat} :
    cardAt (applyDup isC e t p total nbrs 0 cls) i
      = if isC = true ∧ i < cls.length ∧
          (i = p.1 ∨ ratioOk t p total
            (interCount nbrs (if isC then merchAt cls i else cardAt cls i)))
        then insertMem e (cardAt cls i) else cardAt cls i := by
  cases hg : cls.get? i with
  | none =>
    have hlen : ¬ i < cls.length := not_lt.mpr (List.get?_eq_none.mp hg)
    rw [if_neg (by intro hc; exact hlen hc.2.1)]
    unfold cardAt
    rw [applyDup_get?, hg]
    rfl
  | some cl =>
    have hlen : i < cls.length := (List.get?_eq_some.mp hg).choose
    have hopp : oppMembers isC cl = if isC then merchAt cls i else cardAt cls i :=
      oppMembers_get hg
    have hcard : cardAt cls i = cl.cardholders := by
      unfold cardAt
      rw [hg]
      rfl
    have hL : cardAt (applyDup isC e t p total nbrs 0 cls) i
        = (if 0 + i = p.1 ∨ ratioOk t p total (interCount nbrs (oppMembers isC cl))
           then addSide isC e cl else cl).cardholders := by
      unfold cardAt
      rw [applyDup_get?, hg]
      rfl
    rw [hL, hopp, Nat.zero_add]
    by_cases hcond : i = p.1 ∨ ratioOk t p total
        (interCount nbrs (if isC then merchAt cls i else cardAt cls i))
    · rw [if_pos hcond]
      cases isC with
      | true =>
        rw [if_pos ⟨rfl, hlen, hcond⟩, hcard]
        unfold addSide
        simp
      | false =>
        rw [if_neg (by intro hc; exact absurd hc.1 (by simp)), hcard]
        unfold addSide
        simp
    · rw [if_neg hcond, if_neg (by intro hc; exact hcond hc.2.2), hcard]

theorem merchAt_applyDup_eq {isC : Bool} {e : String} {t : ℚ} {p : Nat × Nat}
    {total : Nat} {nbrs : List String} {cls : List Cluster} {i : Nat} :
    merchAt (applyDup isC e t p total nbrs 0 cls) i
      = if isC = false ∧ i < cls.length ∧
          (i = p.1 ∨ ratioOk t p total
            (interCount nbrs (if isC then merchAt cls i else cardAt cls i)))
        then insertMem e (merchAt cls i) else merchAt cls i := by
  cases hg : cls.get? i with
  | none =>
    have hlen : ¬ i < cls.length := not_lt.mpr (List.get?_eq_none.mp hg)
    rw [if_neg (by intro hc; exact hlen hc.2.1)]
    unfold merchAt
    rw [applyDup_get?, hg]
    rfl
  | some cl =>
    have hlen : i < cls.length := (List.get?_eq_some.mp hg).choose
    have hopp : oppMembers isC cl = if isC then merchAt cls i else cardAt cls i :=
      oppMembers_get hg
    have hmerch : merchAt cls i = cl.merchants := by
      unfold merchAt
      rw [hg]
      rfl
    have hL : merchAt (applyDup isC e t p total nbrs 0 cls) i
        = (if 0 + i = p.1 ∨ ratioOk t p total (interCount nbrs (oppMembers isC cl))
           then addSide isC e cl else cl).merchants := by
      unfold merchAt
      rw [applyDup_get?, hg]
      rfl
    rw [hL, hopp, Nat.zero_add]
    by_cases hcond : i = p.1 ∨ ratioOk t p total
        (interCount nbrs (if isC then merchAt cls i else cardAt cls i))
    · rw [if_pos hcond]
      cases isC with
      | true =>
        rw [if_neg (by intro hc; exact absurd hc.1 (by simp)), hmerch]
        unfold addSide
        simp
      | false =>
        rw [if_pos ⟨rfl, hlen, hcond⟩, hmerch]
        unfold addSide
        simp
    · rw [if_neg hcond, if_neg (by intro hc; exact hcond hc.2.2), hmerch]

theorem dupSecondary3_primary_false {ts : Txs} {R : Nat} {t : ℚ}
    {nbrs : List String}
    (h : dupSecondary3 ts R t nbrs (primary3 ts R nbrs).1) : False :=
  absurd rfl h.2.1

end DupStepCharacterisation

section ClaimC1Amended

/-- C1 amended: the per-entity insertion rule of the two duplication passes.
Mode (a) (Part_two): an entity with no neighbours, or no neighbour in any
cluster, is skipped; otherwise the entity is inserted into exactly its
primary (top-count) cluster and every other cluster passing the ratio test,
on its own side of the cluster list, all other memberships unchanged.
Mode (b) (Part_three): the pass never duplicates an entity into its
interaction-count primary cluster — the entity belongs to that cluster only
if it is the cluster of the entity's own final label. -/
theorem C1_amended_duplication_insertion_rule :
    (∀ (ts : Txs) (t : ℚ) (isC : Bool) (e : String) (cls : List Cluster),
      (dupNbrs ts isC e = [] → dupStep ts t isC e cls = cls) ∧
      ((∀ cl ∈ cls, interCount (dupNbrs ts isC e) (oppMembers isC cl) = 0) →
        dupStep ts t isC e cls = cls) ∧
      (dupNbrs ts isC e ≠ [] →
        (¬ ∀ cl ∈ cls, interCount (dupNbrs ts isC e) (oppMembers isC cl) = 0) →
        ∀ i : Nat,
          cardAt (dupStep ts t isC e cls) i
            = (if isC = true ∧ i < cls.length ∧
                  (i = (primaryIdx isC (dupNbrs ts isC e) cls).1 ∨
                   ratioOk t (primaryIdx isC (dupNbrs ts isC e) cls)
                     (dupNbrs ts isC e).length
                     (interCount (dupNbrs ts isC e)
                       (if isC then merchAt cls i else cardAt cls i)))
               then insertMem e (cardAt cls i) else cardAt cls i) ∧
          merchAt (dupStep ts t isC e cls) i
            = (if isC = false ∧ i < cls.length ∧
                  (i = (primaryIdx isC (dupNbrs ts isC e) cls).1 ∨
                   ratioOk t (primaryIdx isC (dupNbrs ts isC e) cls)
                     (dupNbrs ts isC e).length
                     (interCount (dupNbrs ts isC e)
                       (if isC then merchAt cls i else cardAt cls i)))
               then insertMem e (merchAt cls i) else merchAt cls i))) ∧
    (∀ (ts : Txs) (R : Nat) (t : ℚ) (e : String),
      (e ∈ cardholders3 ts R t (primary3 ts R (cardholder_to_merchants ts e)).1
        ↔ coreCard3 ts R e (primary3 ts R (cardholder_to_merchants ts e)).1) ∧
      (e ∈ merchants3 ts R t (primary3 ts R (merchant_to_cardholders ts e)).1
        ↔ coreMerch3 ts R e (primary3 ts R (merchant_to_cardholders ts e)).1)) := by
  constructor
  · intro ts t isC e cls
    refine ⟨dupStep_skip_no_nbrs, dupStep_skip_no_counts, ?_⟩
    intro h1 h2 i
    rw [dupStep_eq_applyDup h1 h2]
    exact ⟨cardAt_applyDup_eq, merchAt_applyDup_eq⟩
  · intro ts R t e
    constructor
    · rw [mem_cardholders3_iff]
      constructor
      · rintro ⟨hent, hcore | hdup⟩
        · exact hcore
        · exact absurd hdup.2.2 (fun h => dupSecondary3_primary_false h)
      · intro hcore
        exact ⟨hcore.1, Or.inl hcore⟩
    · rw [mem_merchants3_iff]
      constructor
      · rintro ⟨hent, hcore | hdup⟩
        · exact hcore
        · exact absurd hdup.2.2 (fun h => dupSecondary3_primary_false h)
      · intro hcore
        exact ⟨hcore.1, Or.inl hcore⟩

/-- Witness for the amended C1: a concrete non-skipped cardholder step of
the mode (a) pass and the mode (b) primary-membership equivalence. -/
theorem C1_amended_duplication_insertion_rule_witness :
    (dupNbrs [("C1", "M1")] true "C1" ≠ [] ∧
      ¬ (∀ cl ∈ [Cluster.mk ["M1"] []],
          interCount (dupNbrs [("C1", "M1")] true "C1") (oppMembers true cl) = 0) ∧
      cardAt (dupStep [("C1", "M1")] (mkRat 1 2) true "C1" [Cluster.mk ["M1"] []]) 0
        = (if (true : Bool) = true ∧ 0 < [Cluster.mk ["M1"] []].length ∧
              (0 = (primaryIdx true (dupNbrs [("C1", "M1")] true "C1")
                  [Cluster.mk ["M1"] []]).1 ∨
               ratioOk (mkRat 1 2)
                 (primaryIdx true (dupNbrs [("C1", "M1")] true "C1")
                   [Cluster.mk ["M1"] []])
                 (dupNbrs [("C1", "M1")] true "C1").length
                 (interCount (dupNbrs [("C1", "M1")] true "C1")
                   (if true then merchAt [Cluster.mk ["M1"] []] 0
                    else cardAt [Cluster.mk ["M1"] []] 0)))
           then insertMem "C1" (cardAt [Cluster.mk ["M1"] []] 0)
           else cardAt [Cluster.mk ["M1"] []] 0)) ∧
    ("C1" ∈ cardholders3 tsStar 1 (mkRat 1 1)
        (primary3 tsStar 1 (cardholder_to_merchants tsStar "C1")).1
      ↔ coreCard3 tsStar 1 "C1"
        (primary3 tsStar 1 (cardholder_to_merchants tsStar "C1")).1) :=
  ⟨⟨by decide, by decide,
    ((C1_amended_duplication_insertion_rule.1 [("C1", "M1")] (mkRat 1 2) true "C1"
      [Cluster.mk ["M1"] []]).2.2 (by decide) (by decide) 0).1⟩,
   (C1_amended_duplication_insertion_rule.2 tsStar 1 (mkRat 1 1) "C1").1⟩

end ClaimC1Amended

section CoreHelpers

theorem startsC_not_startsM {s : String} (h : startsC s = true) : startsM s = false := by
  unfold startsC at h
  unfold startsM
  cases hs : s.data with
  | nil =>
    rw [hs] at h
  | cons a rest =>
    rw [hs] at h
    replace h : (a == 'C') = true := h
    simp only [beq_iff_eq] at h
    subst h
    show ('C' == 'M') = false
    rfl

theorem startsM_not_startsC {s : String} (h : startsM s = true) : startsC s = false := by
  unfold startsM at h
  unfold startsC
  cases hs : s.data with
  | nil =>
    rw [hs] at h
  | cons a rest =>
    rw [hs] at h
    replace h : (a == 'M') = true := h
    simp only [beq_iff_eq] at h
    subst h
    show ('M' == 'C') = false
    rfl

theorem cKeys_startsC {ts : Txs} (hd : disciplined ts) {e : String}
    (h : e ∈ cKeys ts) : startsC e = true := by
  rw [mem_cKeys] at h
  obtain ⟨p, hp, rfl⟩ := h
  exact (hd p hp).1

theorem mKeys_startsM {ts : Txs} (hd : disciplined ts) {e : String}
    (h : e ∈ mKeys ts) : startsM e = true := by
  rw [mem_mKeys] at h
  obtain ⟨p, hp, rfl⟩ := h
  exact (hd p hp).2

theorem not_mem_cKeys_and_mKeys {ts : Txs} (hd : disciplined ts) {e : String}
    (hc : e ∈ cKeys ts) (hm : e ∈ mKeys ts) : False := by
  have h1 := cKeys_startsC hd hc
  have h2 := mKeys_startsM hd hm
  rw [startsC_not_startsM h1] at h2
  exact absurd h2 (by simp)

theorem lookupCore_cons {a : String} {j : Nat} {m : List (String × Nat)} {x : String} :
    lookupCore ((a, j) :: m) x = if a = x then some j else lookupCore m x := by
  unfold lookupCore
  by_cases h : a = x
  · subst h
    rw [List.find?_cons_of_pos _ (by simp)]
    simp
  · rw [List.find?_cons_of_neg _ (by simpa using h), if_neg h]

theorem interCount_pos_iff {nbrs members : List String} :
    0 < interCount nbrs members ↔ ∃ n ∈ nbrs, n ∈ members := by
  unfold interCount
  rw [List.length_pos_iff_exists_mem]
  constructor
  · rintro ⟨n, hn⟩
    rw [List.mem_filter] at hn
    exact ⟨n, hn.1, by simpa using hn.2⟩
  · rintro ⟨n, hn, hm⟩
    exact ⟨n, by rw [List.mem_filter]; exact ⟨hn, by simpa using hm⟩⟩

theorem applyDup_length {isC : Bool} {e : String} {t : ℚ} {p : Nat × Nat}
    {total : Nat} {nbrs : List String} :
    ∀ (cls : List Cluster) (i : Nat),
      (applyDup isC e t p total nbrs i cls).length = cls.length := by
  intro cls
  induction cls with
  | nil => intro i; rfl
  | cons cl rest ih =>
    intro i
    simp only [applyDup, List.length_cons, ih]

theorem dupStep_length {ts : Txs} {t : ℚ} {isC : Bool} {e : String}
    {cls : List Cluster} : (dupStep ts t isC e cls).length = cls.length := by
  rcases dupStep_eq_or ts t isC e cls with h | h
  · rw [h]
  · rw [h]
    exact applyDup_length cls 0

theorem foldl_dupStep_length {ts : Txs} {t : ℚ} {isC : Bool} :
    ∀ (ord : List String) (cls : List Cluster),
      (ord.foldl (fun acc e => dupStep ts t isC e acc) cls).length = cls.length := by
  intro ord
  induction ord with
  | nil => intro cls; rfl
  | cons e rest ih =>
    intro cls
    simp only [List.foldl_cons]
    rw [ih, dupStep_length]

theorem argmaxAux_fst_cases :
    ∀ (cs : List Nat) (i : Nat) (best : Nat × Nat),
      (argmaxAux cs i best).1 = best.1 ∨
        ∃ k, k < cs.length ∧ (argmaxAux cs i best).1 = i + k := by
  intro cs
  induction cs with
  | nil => intro i best; exact Or.inl rfl
  | cons c rest ih =>
    intro i best
    simp only [argmaxAux]
    by_cases hc : c > best.2
    · rw [if_pos hc]
      rcases ih (i + 1) (i, c) with h | ⟨k, hk, h⟩
      · exact Or.inr ⟨0, by simp, by simpa using h⟩
      · exact Or.inr ⟨k + 1, by simpa using hk, by omega⟩
    · rw [if_neg hc]
      rcases ih (i + 1) best with h | ⟨k, hk, h⟩
      · exact Or.inl h
      · exact Or.inr ⟨k + 1, by simpa using hk, by omega⟩

theorem primaryIdx_fst_lt {isC : Bool} {nbrs : List String} {cls : List Cluster}
    (h : cls ≠ []) : (primaryIdx isC nbrs cls).1 < cls.length := by
  unfold primaryIdx
  have hlen : 0 < cls.length := List.length_pos_of_ne_nil h
  rcases argmaxAux_fst_cases (cls.map (fun cl => interCount nbrs (oppMembers isC cl)))
      0 (0, 0) with hc | ⟨k, hk, hc⟩
  · rw [hc]; exact hlen
  · rw [hc]
    simpa using hk

theorem dropWhile_ne_eq_cons {e : String} :
    ∀ l : List String, e ∈ l →
      ∃ tail, l.dropWhile (fun x => x != e) = e :: tail := by
  intro l
  induction l with
  | nil => intro h; simp at h
  | cons a as ih =>
    intro h
    by_cases ha : a = e
    · subst ha
      refine ⟨as, ?_⟩
      rw [List.dropWhile_cons_of_neg]
      simp
    · have hmem : e ∈ as := by
        rcases List.mem_cons.mp h with h' | h'
        · exact absurd h'.symm ha
        · exact h'
      obtain ⟨tail, htail⟩ := ih hmem
      refine ⟨tail, ?_⟩
      rw [List.dropWhile_cons_of_pos (by simpa using ha), htail]

theorem foldl_decompose_at {f : List Cluster → String → List Cluster} {e : String} :
    ∀ (l : List String), e ∈ l →
      ∀ init : List Cluster,
        l.foldl f init
          = ((l.dropWhile (fun x => x != e)).tail).foldl f
              (f ((l.takeWhile (fun x => x != e)).foldl f init) e) := by
  intro l hl init
  obtain ⟨tail, htail⟩ := dropWhile_ne_eq_cons l hl
  conv =>
    lhs
    rw [← List.takeWhile_append_dropWhile (p := fun x => x != e) (l := l)]
  rw [List.foldl_append, htail]
  simp

theorem cardAt_append_left {cls : List Cluster} {cl : Cluster} {j : Nat}
    (h : j < cls.length) : cardAt (cls ++ [cl]) j = cardAt cls j := by
  unfold cardAt
  rw [List.get?_append h]

theorem merchAt_append_left {cls : List Cluster} {cl : Cluster} {j : Nat}
    (h : j < cls.length) : merchAt (cls ++ [cl]) j = merchAt cls j := by
  unfold merchAt
  rw [List.get?_append h]

theorem cardAt_append_last {cls : List Cluster} {cl : Cluster} :
    cardAt (cls ++ [cl]) cls.length = cl.cardholders := by
  unfold cardAt
  rw [List.get?_concat_length]
  rfl

theorem merchAt_append_last {cls : List Cluster} {cl : Cluster} :
    merchAt (cls ++ [cl]) cls.length = cl.merchants := by
  unfold merchAt
  rw [List.get?_concat_length]
  rfl

theorem coreFold_append (ts : Txs) (fuel : Nat) :
    ∀ (l₁ l₂ : List String) (st : CoreState),
      coreFold ts fuel (l₁ ++ l₂) st = coreFold ts fuel l₂ (coreFold ts fuel l₁ st) := by
  intro l₁
  induction l₁ with
  | nil => intro l₂ st; rfl
  | cons e rest ih =>
    intro l₂ st
    simp only [List.cons_append, coreFold]
    by_cases h : seedOk st e = true
    · rw [if_pos h, if_pos h]
      exact ih l₂ _
    · rw [if_neg h, if_neg h]
      exact ih l₂ st

end CoreHelpers

section BfsInvariants

theorem lookupCore_nil {x : String} : lookupCore [] x = none := rfl

theorem isBridge_of_none {m : List (String × Nat)} {e : String} {cid : Nat}
    (h : lookupCore m e = none) : isBridge m e cid = false := by
  unfold isBridge
  rw [h]

theorem admitC_preserves {ts : Txs} {clusters : List Cluster} {cid : Nat}
    {st : BfsState} {e : String} (hd : disciplined ts)
    (hinv : BfsInv ts clusters cid st) (hC : startsC e = true) :
    BfsInv ts clusters cid (admitC e cid st) ∧
    mapExtends st.coreMap (admitC e cid st).coreMap ∧
    st.cc ⊆ (admitC e cid st).cc ∧ st.cm ⊆ (admitC e cid st).cm := by
  obtain ⟨ha, hbc, hbm, hnc, hnm⟩ := hinv
  unfold admitC
  by_cases hun : e ∈ st.unC
  · have hck : e ∈ cKeys ts := ((hbc e).mp hun).1
    have hnone : lookupCore st.coreMap e = none := ((hbc e).mp hun).2
    rw [if_pos hun]
    refine ⟨⟨?_, ?_, ?_, ?_, ?_⟩, ?_, ?_, ?_⟩
    · intro x j hx
      rw [lookupCore_cons] at hx
      by_cases hxe : e = x
      · rw [if_pos hxe] at hx
        subst hxe
        injection hx with hj
        exact Or.inr ⟨hj.symm, Or.inl ⟨hC, mem_insertMem_self⟩⟩
      · rw [if_neg hxe] at hx
        rcases ha x j hx with h | ⟨hj, hside⟩
        · exact Or.inl h
        · refine Or.inr ⟨hj, ?_⟩
          rcases hside with ⟨hs, hm⟩ | ⟨hs, hm⟩
          · exact Or.inl ⟨hs, insertMem_subset hm⟩
          · exact Or.inr ⟨hs, hm⟩
    · intro x
      rw [hnc.mem_erase_iff, hbc x, lookupCore_cons]
      constructor
      · rintro ⟨hxe, hk, hn⟩
        exact ⟨hk, by rw [if_neg (fun h => hxe h.symm)]; exact hn⟩
      · rintro ⟨hk, hn⟩
        by_cases hxe : e = x
        · rw [if_pos hxe] at hn
          exact absurd hn (by simp)
        · rw [if_neg hxe] at hn
          exact ⟨fun h => hxe h.symm, hk, hn⟩
    · intro x
      rw [hbm x, lookupCore_cons]
      constructor
      · rintro ⟨hk, hn⟩
        by_cases hxe : e = x
        · subst hxe
          exact absurd (not_mem_cKeys_and_mKeys hd hck hk) (fun h => h)
        · exact ⟨hk, by rw [if_neg hxe]; exact hn⟩
      · rintro ⟨hk, hn⟩
        by_cases hxe : e = x
        · rw [if_pos hxe] at hn
          exact absurd hn (by simp)
        · rw [if_neg hxe] at hn
          exact ⟨hk, hn⟩
    · exact hnc.erase e
    · exact hnm
    · intro x j hx
      rw [lookupCore_cons]
      by_cases hxe : e = x
      · subst hxe
        rw [hnone] at hx
        exact absurd hx (by simp)
      · rw [if_neg hxe]
        exact hx
    · intro x hx
      exact insertMem_subset hx
    · intro x hx
      exact hx
  · rw [if_neg hun]
    refine ⟨⟨?_, hbc, hbm, hnc, hnm⟩, fun x j h => h, ?_, fun x h => h⟩
    · intro x j hx
      rcases ha x j hx with h | ⟨hj, hside⟩
      · exact Or.inl h
      · refine Or.inr ⟨hj, ?_⟩
        rcases hside with ⟨hs, hm⟩ | ⟨hs, hm⟩
        · exact Or.inl ⟨hs, insertMem_subset hm⟩
        · exact Or.inr ⟨hs, hm⟩
    · intro x hx
      exact insertMem_subset hx

theorem admitM_preserves {ts : Txs} {clusters : List Cluster} {cid : Nat}
    {st : BfsState} {e : String} (hd : disciplined ts)
    (hinv : BfsInv ts clusters cid st) (hM : startsM e = true) :
    BfsInv ts clusters cid (admitM e cid st) ∧
    mapExtends st.coreMap (admitM e cid st).coreMap ∧
    st.cc ⊆ (admitM e cid st).cc ∧ st.cm ⊆ (admitM e cid st).cm := by
  obtain ⟨ha, hbc, hbm, hnc, hnm⟩ := hinv
  unfold admitM
  by_cases hun : e ∈ st.unM
  · have hmk : e ∈ mKeys ts := ((hbm e).mp hun).1
    have hnone : lookupCore st.coreMap e = none := ((hbm e).mp hun).2
    rw [if_pos hun]
    refine ⟨⟨?_, ?_, ?_, ?_, ?_⟩, ?_, ?_, ?_⟩
    · intro x j hx
      rw [lookupCore_cons] at hx
      by_cases hxe : e = x
      · rw [if_pos hxe] at hx
        subst hxe
        injection hx with hj
        exact Or.inr ⟨hj.symm, Or.inr ⟨hM, mem_insertMem_self⟩⟩
      · rw [if_neg hxe] at hx
        rcases ha x j hx with h | ⟨hj, hside⟩
        · exact Or.inl h
        · refine Or.inr ⟨hj, ?_⟩
          rcases hside with ⟨hs, hm⟩ | ⟨hs, hm⟩
          · exact Or.inl ⟨hs, hm⟩
          · exact Or.inr ⟨hs, insertMem_subset hm⟩
    · intro x
      rw [hbc x, lookupCore_cons]
      constructor
      · rintro ⟨hk, hn⟩
        by_cases hxe : e = x
        · subst hxe
          exact absurd (not_mem_cKeys_and_mKeys hd hk hmk) (fun h => h)
        · exact ⟨hk, by rw [if_neg hxe]; exact hn⟩
      · rintro ⟨hk, hn⟩
        by_cases hxe : e = x
        · rw [if_pos hxe] at hn
          exact absurd hn (by simp)
        · rw [if_neg hxe] at hn
          exact ⟨hk, hn⟩
    · intro x
      rw [hnm.mem_erase_iff, hbm x, lookupCore_cons]
      constructor
      · rintro ⟨hxe, hk, hn⟩
        exact ⟨hk, by rw [if_neg (fun h => hxe h.symm)]; exact hn⟩
      · rintro ⟨hk, hn⟩
        by_cases hxe : e = x
        · rw [if_pos hxe] at hn
          exact absurd hn (by simp)
        · rw [if_neg hxe] at hn
          exact ⟨fun h => hxe h.symm, hk, hn⟩
    · exact hnc
    · exact hnm.erase e
    · intro x j hx
      rw [lookupCore_cons]
      by_cases hxe : e = x
      · subst hxe
        rw [hnone] at hx
        exact absurd hx (by simp)
      · rw [if_neg hxe]
        exact hx
    · intro x hx
      exact hx
    · intro x hx
      exact insertMem_subset hx
  · rw [if_neg hun]
    refine ⟨⟨?_, hbc, hbm, hnc, hnm⟩, fun x j h => h, fun x h => h, ?_⟩
    · intro x j hx
      rcases ha x j hx with h | ⟨hj, hside⟩
      · exact Or.inl h
      · refine Or.inr ⟨hj, ?_⟩
        rcases hside with ⟨hs, hm⟩ | ⟨hs, hm⟩
        · exact Or.inl ⟨hs, hm⟩
        · exact Or.inr ⟨hs, insertMem_subset hm⟩
    · intro x hx
      exact insertMem_subset hx

theorem bfs_preserves {ts : Txs} {clusters : List Cluster} {cid : Nat}
    (hd : disciplined ts) :
    ∀ (fuel : Nat) (q : List String) (st : BfsState), BfsInv ts clusters cid st →
      BfsInv ts clusters cid (bfs ts cid fuel q st) ∧
      mapExtends st.coreMap (bfs ts cid fuel q st).coreMap ∧
      st.cc ⊆ (bfs ts cid fuel q st).cc ∧ st.cm ⊆ (bfs ts cid fuel q st).cm := by
  intro fuel
  induction fuel with
  | zero =>
    intro q st hinv
    exact ⟨hinv, fun x j h => h, fun x h => h, fun x h => h⟩
  | succ fuel ih =>
    intro q st hinv
    cases q with
    | nil =>
      exact ⟨hinv, fun x j h => h, fun x h => h, fun x h => h⟩
    | cons e rest =>
      show _ ∧ _ ∧ _ ∧ _
      simp only [bfs]
      by_cases hC : startsC e = true
      · rw [if_pos hC]
        by_cases hb : isBridge st.coreMap e cid = true
        · rw [if_pos hb]
          exact ih rest st hinv
        · rw [if_neg hb]
          by_cases hcc : e ∈ st.cc
          · rw [if_pos hcc]
            exact ih rest st hinv
          · rw [if_neg hcc]
            obtain ⟨h1, h2, h3, h4⟩ := admitC_preserves hd hinv hC
            obtain ⟨g1, g2, g3, g4⟩ := ih _ _ h1
            exact ⟨g1, fun x j hx => g2 x j (h2 x j hx),
              fun x hx => g3 (h3 hx), fun x hx => g4 (h4 hx)⟩
      · rw [if_neg hC]
        by_cases hM : startsM e = true
        · rw [if_pos hM]
          by_cases hb : isBridge st.coreMap e cid = true
          · rw [if_pos hb]
            exact ih rest st hinv
          · rw [if_neg hb]
            by_cases hcm : e ∈ st.cm
            · rw [if_pos hcm]
              exact ih rest st hinv
            · rw [if_neg hcm]
              obtain ⟨h1, h2, h3, h4⟩ := admitM_preserves hd hinv hM
              obtain ⟨g1, g2, g3, g4⟩ := ih _ _ h1
              exact ⟨g1, fun x j hx => g2 x j (h2 x j hx),
                fun x hx => g3 (h3 hx), fun x hx => g4 (h4 hx)⟩
        · rw [if_neg hM]
          exact ih rest st hinv

end BfsInvariants

section OuterInvariants

theorem outer_to_bfs {ts : Txs} {st : CoreState} (hinv : OuterInv ts st) :
    BfsInv ts st.clusters st.clusters.length
      ⟨[], [], st.coreMap, st.unC, st.unM⟩ := by
  obtain ⟨ha, hbc, hbm, hnc, hnm⟩ := hinv
  exact ⟨fun x j hx => Or.inl (ha x j hx), hbc, hbm, hnc, hnm⟩

theorem bfs_to_outer {ts : Txs} {st : CoreState} {b : BfsState}
    (hinv : BfsInv ts st.clusters st.clusters.length b) :
    OuterInv ts
      { clusters := if b.cm ≠ [] ∨ b.cc ≠ [] then st.clusters ++ [⟨b.cm, b.cc⟩]
          else st.clusters,
        coreMap := b.coreMap, unC := b.unC, unM := b.unM } := by
  obtain ⟨ha, hbc, hbm, hnc, hnm⟩ := hinv
  refine ⟨?_, hbc, hbm, hnc, hnm⟩
  intro x j hx
  rcases ha x j hx with ⟨hj, hside⟩ | ⟨hj, hside⟩
  · by_cases hne : b.cm ≠ [] ∨ b.cc ≠ []
    · rw [if_pos hne]
      simp only [List.length_append, List.length_singleton]
      refine ⟨by omega, ?_⟩
      rcases hside with ⟨hs, hm⟩ | ⟨hs, hm⟩
      · exact Or.inl ⟨hs, by rw [cardAt_append_left hj]; exact hm⟩
      · exact Or.inr ⟨hs, by rw [merchAt_append_left hj]; exact hm⟩
    · rw [if_neg hne]
      exact ⟨hj, hside⟩
  · subst hj
    have hne : b.cm ≠ [] ∨ b.cc ≠ [] := by
      rcases hside with ⟨_, hm⟩ | ⟨_, hm⟩
      · exact Or.inr (List.ne_nil_of_mem hm)
      · exact Or.inl (List.ne_nil_of_mem hm)
    rw [if_pos hne]
    simp only [List.length_append, List.length_singleton]
    refine ⟨by omega, ?_⟩
    rcases hside with ⟨hs, hm⟩ | ⟨hs, hm⟩
    · exact Or.inl ⟨hs, by rw [cardAt_append_last]; exact hm⟩
    · exact Or.inr ⟨hs, by rw [merchAt_append_last]; exact hm⟩

theorem seedOk_iff {st : CoreState} {e : String} :
    seedOk st e = true ↔
      (startsC e = true ∧ e ∈ st.unC) ∨ (startsM e = true ∧ e ∈ st.unM) := by
  unfold seedOk
  simp [Bool.or_eq_true, Bool.and_eq_true, decide_eq_true_eq]

theorem coreFold_preserves {ts : Txs} (hd : disciplined ts) (fuel : Nat) :
    ∀ (cands : List String) (st : CoreState), OuterInv ts st →
      OuterInv ts (coreFold ts fuel cands st) ∧
      mapExtends st.coreMap (coreFold ts fuel cands st).coreMap := by
  intro cands
  induction cands with
  | nil =>
    intro st hinv
    exact ⟨hinv, fun x j h => h⟩
  | cons e rest ih =>
    intro st hinv
    show OuterInv ts (coreFold ts fuel (e :: rest) st) ∧ _
    simp only [coreFold]
    by_cases hs : seedOk st e = true
    · rw [if_pos hs]
      obtain ⟨b1, b2, _, _⟩ :=
        bfs_preserves hd fuel [e] ⟨[], [], st.coreMap, st.unC, st.unM⟩ (outer_to_bfs hinv)
      have houter := @bfs_to_outer ts st _ b1
      obtain ⟨g1, g2⟩ := ih _ houter
      exact ⟨g1, fun x j hx => g2 x j (b2 x j hx)⟩
    · rw [if_neg hs]
      exact ih st hinv

theorem bfs_seed_assigned_C {ts : Txs} {clusters : List Cluster} {cid : Nat}
    {st : BfsState} {e : String} (hd : disciplined ts)
    (hinv : BfsInv ts clusters cid st) (hC : startsC e = true)
    (hun : e ∈ st.unC) (hcc : e ∉ st.cc) (fuel : Nat) :
    lookupCore (bfs ts cid (fuel + 1) [e] st).coreMap e = some cid := by
  have hnone : lookupCore st.coreMap e = none := ((hinv.2.1 e).mp hun).2
  have hnb : isBridge st.coreMap e cid = false := isBridge_of_none hnone
  have hstep : bfs ts cid (fuel + 1) [e] st
      = bfs ts cid fuel
          ([] ++ (cardholder_to_merchants ts e).filter (fun x => decide (x ∉ st.cm)))
          (admitC e cid st) := by
    simp only [bfs]
    rw [if_pos hC, if_neg (by rw [hnb]; simp), if_neg hcc]
  rw [hstep]
  obtain ⟨i1, _, _, _⟩ := @admitC_preserves ts clusters cid st e hd hinv hC
  have hlook : lookupCore (admitC e cid st).coreMap e = some cid := by
    unfold admitC
    rw [if_pos hun]
    show lookupCore ((e, cid) :: st.coreMap) e = some cid
    rw [lookupCore_cons, if_pos rfl]
  exact (bfs_preserves hd fuel _ _ i1).2.1 e cid hlook

theorem bfs_seed_assigned_M {ts : Txs} {clusters : List Cluster} {cid : Nat}
    {st : BfsState} {e : String} (hd : disciplined ts)
    (hinv : BfsInv ts clusters cid st) (hM : startsM e = true)
    (hun : e ∈ st.unM) (hcm : e ∉ st.cm) (fuel : Nat) :
    lookupCore (bfs ts cid (fuel + 1) [e] st).coreMap e = some cid := by
  have hnone : lookupCore st.coreMap e = none := ((hinv.2.2.1 e).mp hun).2
  have hnb : isBridge st.coreMap e cid = false := isBridge_of_none hnone
  have hC : startsC e = false := startsM_not_startsC hM
  have hstep : bfs ts cid (fuel + 1) [e] st
      = bfs ts cid fuel
          ([] ++ (merchant_to_cardholders ts e).filter (fun x => decide (x ∉ st.cc)))
          (admitM e cid st) := by
    simp only [bfs]
    rw [if_neg (by rw [hC]; simp), if_pos hM, if_neg (by rw [hnb]; simp), if_neg hcm]
  rw [hstep]
  obtain ⟨i1, _, _, _⟩ := @admitM_preserves ts clusters cid st e hd hinv hM
  have hlook : lookupCore (admitM e cid st).coreMap e = some cid := by
    unfold admitM
    rw [if_pos hun]
    show lookupCore ((e, cid) :: st.coreMap) e = some cid
    rw [lookupCore_cons, if_pos rfl]
  exact (bfs_preserves hd fuel _ _ i1).2.1 e cid hlook

theorem coreFold_assigns {ts : Txs} (hd : disciplined ts) {fuel : Nat}
    (hfuel : 1 ≤ fuel) :
    ∀ (cands : List String) (st : CoreState), OuterInv ts st →
      ∀ e ∈ cands, e ∈ cKeys ts ∨ e ∈ mKeys ts →
        ∃ j, lookupCore (coreFold ts fuel cands st).coreMap e = some j := by
  intro cands
  induction cands with
  | nil =>
    intro st _ e hmem _
    exact absurd hmem (by simp)
  | cons a rest ih =>
    intro st hinv e hmem hkey
    obtain ⟨fuel', rfl⟩ : ∃ f, fuel = f + 1 :=
      ⟨fuel - 1, by omega⟩
    show ∃ j, lookupCore (coreFold ts (fuel' + 1) (a :: rest) st).coreMap e = some j
    simp only [coreFold]
    by_cases hs : seedOk st a = true
    · rw [if_pos hs]
      have hbinv := outer_to_bfs hinv
      obtain ⟨b1, b2, _, _⟩ :=
        bfs_preserves hd (fuel' + 1) [a] ⟨[], [], st.coreMap, st.unC, st.unM⟩ hbinv
      have houter := @bfs_to_outer ts st _ b1
      rcases List.mem_cons.mp hmem with rfl | hmem'
      · have hassigned : lookupCore (bfs ts st.clusters.length (fuel' + 1) [e]
            ⟨[], [], st.coreMap, st.unC, st.unM⟩).coreMap e = some st.clusters.length := by
          rcases seedOk_iff.mp hs with ⟨hc, hun⟩ | ⟨hm, hun⟩
          · exact bfs_seed_assigned_C hd hbinv hc hun (by simp) fuel'
          · exact bfs_seed_assigned_M hd hbinv hm hun (by simp) fuel'
        obtain ⟨_, g2⟩ := coreFold_preserves hd (fuel' + 1) rest _ houter
        exact ⟨st.clusters.length, g2 e st.clusters.length hassigned⟩
      · exact ih _ houter e hmem' hkey
    · rw [if_neg hs]
      rcases List.mem_cons.mp hmem with rfl | hmem'
      · have hnotseed := (fun h => hs (seedOk_iff.mpr h))
        have hsome : ∃ j, lookupCore st.coreMap e = some j := by
          rcases hkey with hk | hk
          · have hc := cKeys_startsC hd hk
            by_cases hn : lookupCore st.coreMap e = none
            · exact absurd (Or.inl ⟨hc, (hinv.2.1 e).mpr ⟨hk, hn⟩⟩) hnotseed
            · cases hx : lookupCore st.coreMap e with
              | none => exact absurd hx hn
              | some j => exact ⟨j, rfl⟩
          · have hm := mKeys_startsM hd hk
            by_cases hn : lookupCore st.coreMap e = none
            · exact absurd (Or.inr ⟨hm, (hinv.2.2.1 e).mpr ⟨hk, hn⟩⟩) hnotseed
            · cases hx : lookupCore st.coreMap e with
              | none => exact absurd hx hn
              | some j => exact ⟨j, rfl⟩
        obtain ⟨j, hj⟩ := hsome
        obtain ⟨_, g2⟩ := coreFold_preserves hd (fuel' + 1) rest st hinv
        exact ⟨j, g2 e j hj⟩
      · exact ih st hinv e hmem' hkey

theorem initial_outer_inv (ts : Txs) :
    OuterInv ts { clusters := [], coreMap := [], unC := cKeys ts, unM := mKeys ts } := by
  refine ⟨?_, ?_, ?_, firstDedup_nodup, firstDedup_nodup⟩
  · intro x j hx
    rw [lookupCore_nil] at hx
    exact absurd hx (by simp)
  · intro x
    simp [lookupCore_nil]
  · intro x
    simp [lookupCore_nil]

theorem coreRun_inv {ts : Txs} (hd : disciplined ts) (cands : List String) :
    OuterInv ts (coreRun ts cands) :=
  (coreFold_preserves hd (bfsFuel ts) cands _ (initial_outer_inv ts)).1

theorem coreRun_assigns {ts : Txs} (hd : disciplined ts) {cands : List String}
    {e : String} (hmem : e ∈ cands) (hkey : e ∈ cKeys ts ∨ e ∈ mKeys ts) :
    ∃ j, lookupCore (coreRun ts cands).coreMap e = some j := by
  have hfuel : 1 ≤ bfsFuel ts := by
    unfold bfsFuel
    omega
  exact coreFold_assigns hd hfuel cands _ (initial_outer_inv ts) e hmem hkey

end OuterInvariants

section ClaimC3

theorem cardholder_to_merchants_ne_nil {ts : Txs} {e : String} (h : e ∈ cKeys ts) :
    cardholder_to_merchants ts e ≠ [] := by
  rw [mem_cKeys] at h
  obtain ⟨p, hp, hpe⟩ := h
  have : p.2 ∈ cardholder_to_merchants ts e := by
    rw [mem_cardholder_to_merchants, ← hpe]
    exact hp
  exact List.ne_nil_of_mem this

theorem merchant_to_cardholders_ne_nil {ts : Txs} {e : String} (h : e ∈ mKeys ts) :
    merchant_to_cardholders ts e ≠ [] := by
  rw [mem_mKeys] at h
  obtain ⟨p, hp, hpe⟩ := h
  have : p.1 ∈ merchant_to_cardholders ts e := by
    rw [mem_merchant_to_cardholders, ← hpe]
    exact hp
  exact List.ne_nil_of_mem this

theorem c2m_subset_mKeys {ts : Txs} {e n : String}
    (h : n ∈ cardholder_to_merchants ts e) : n ∈ mKeys ts := by
  rw [mem_cardholder_to_merchants] at h
  rw [mem_mKeys]
  exact ⟨(e, n), h, rfl⟩

theorem m2c_subset_cKeys {ts : Txs} {e n : String}
    (h : n ∈ merchant_to_cardholders ts e) : n ∈ cKeys ts := by
  rw [mem_merchant_to_cardholders] at h
  rw [mem_cKeys]
  exact ⟨(n, e), h, rfl⟩

theorem core_member_merch {ts : Txs} (hd : disciplined ts) {n : String}
    (hk : n ∈ mKeys ts) :
    ∃ j, j < (find_clusters_core ts).clusters.length ∧
      n ∈ merchAt (find_clusters_core ts).clusters j := by
  have hmem : n ∈ cKeys ts ++ mKeys ts := List.mem_append.mpr (Or.inr hk)
  obtain ⟨j, hj⟩ := coreRun_assigns hd hmem (Or.inr hk)
  have hinv := coreRun_inv hd (cKeys ts ++ mKeys ts)
  obtain ⟨hlt, hside⟩ := hinv.1 n j hj
  refine ⟨j, hlt, ?_⟩
  rcases hside with ⟨hs, _⟩ | ⟨_, hm⟩
  · rw [startsM_not_startsC (mKeys_startsM hd hk)] at hs
    exact absurd hs (by simp)
  · exact hm

theorem core_member_card {ts : Txs} (hd : disciplined ts) {n : String}
    (hk : n ∈ cKeys ts) :
    ∃ j, j < (find_clusters_core ts).clusters.length ∧
      n ∈ cardAt (find_clusters_core ts).clusters j := by
  have hmem : n ∈ cKeys ts ++ mKeys ts := List.mem_append.mpr (Or.inl hk)
  obtain ⟨j, hj⟩ := coreRun_assigns hd hmem (Or.inl hk)
  have hinv := coreRun_inv hd (cKeys ts ++ mKeys ts)
  obtain ⟨hlt, hside⟩ := hinv.1 n j hj
  refine ⟨j, hlt, ?_⟩
  rcases hside with ⟨_, hm⟩ | ⟨hs, _⟩
  · exact hm
  · rw [startsC_not_startsM (cKeys_startsC hd hk)] at hs
    exact absurd hs (by simp)

/-- C3: in mode (a), under the id discipline the side dispatch relies on,
(i) every entity appearing in any interaction is core-assigned to exactly
one cluster (the assignment map is defined on it, necessarily uniquely) and
is a member of that cluster on its own side before duplication, for every
candidate order covering the entities; (ii) the core-assignment map is
append-only: continuing the run never changes an existing binding; and
(iii) after the duplication pass every cardholder and merchant is still a
member of its primary cluster (the top-count cluster at its duplication
step). -/
theorem C3_core_assignment_complete_append_only_primary_kept :
    ∀ (ts : Txs) (t : ℚ) (cands : List String), disciplined ts →
      (∀ e ∈ entities ts, e ∈ cands) →
      ((∀ e ∈ entities ts, ∃ j,
        lookupCore (coreRun ts cands).coreMap e = some j ∧
        j < (coreRun ts cands).clusters.length ∧
        ((startsC e = true ∧ e ∈ cardAt (coreRun ts cands).clusters j) ∨
         (startsM e = true ∧ e ∈ merchAt (coreRun ts cands).clusters j))) ∧
      (∀ cands' : List String,
        mapExtends (coreRun ts cands).coreMap (coreRun ts (cands ++ cands')).coreMap) ∧
      (∀ e ∈ cKeys ts,
        e ∈ cardAt (find_clusters_with_duplication ts t)
          (primaryIdx true (cardholder_to_merchants ts e)
            (dupMidC ts t (find_clusters_core ts).clusters e)).1) ∧
      (∀ e ∈ mKeys ts,
        e ∈ merchAt (find_clusters_with_duplication ts t)
          (primaryIdx false (merchant_to_cardholders ts e)
            (dupMidM ts t (find_clusters_core ts).clusters e)).1)) := by
  intro ts t cands hd hcov
  refine ⟨?_, ?_, ?_, ?_⟩
  · intro e he
    obtain ⟨j, hj⟩ := coreRun_assigns hd (hcov e he) (mem_entities_iff_keys.mp he)
    obtain ⟨hlt, hside⟩ := (coreRun_inv hd cands).1 e j hj
    exact ⟨j, hj, hlt, hside⟩
  · intro cands'
    rw [show coreRun ts (cands ++ cands')
        = coreFold ts (bfsFuel ts) cands' (coreRun ts cands) from coreFold_append ts _ cands cands' _]
    exact (coreFold_preserves hd (bfsFuel ts) cands' _ (coreRun_inv hd cands)).2
  · intro e he
    have hne : cardholder_to_merchants ts e ≠ [] := cardholder_to_merchants_ne_nil he
    obtain ⟨n, hn⟩ := List.exists_mem_of_ne_nil _ hne
    obtain ⟨j, hjlt, hjm⟩ := core_member_merch hd (c2m_subset_mKeys hn)
    have hmid : dupMidC ts t (find_clusters_core ts).clusters e
        = ((cKeys ts).takeWhile (fun x => x != e)).foldl
            (fun acc c => dupStep ts t true c acc) (find_clusters_core ts).clusters := rfl
    have hmidlen : (dupMidC ts t (find_clusters_core ts).clusters e).length
        = (find_clusters_core ts).clusters.length := by
      rw [hmid]
      exact foldl_dupStep_length _ _
    have hnm : n ∈ merchAt (dupMidC ts t (find_clusters_core ts).clusters e) j := by
      rw [hmid]
      exact merchAt_foldl_dupStep_mono _ _ j n hjm
    have hjmid : j < (dupMidC ts t (find_clusters_core ts).clusters e).length := by
      omega
    cases hg : (dupMidC ts t (find_clusters_core ts).clusters e).get? j with
    | none =>
      have := List.get?_eq_none.mp hg
      omega
    | some cl =>
      have hclm : merchAt (dupMidC ts t (find_clusters_core ts).clusters e) j
          = cl.merchants := by
        unfold merchAt
        rw [hg]
        rfl
      have hclmem : cl ∈ dupMidC ts t (find_clusters_core ts).clusters e :=
        List.get?_mem hg
      have hguard : ¬ ∀ cl' ∈ dupMidC ts t (find_clusters_core ts).clusters e,
          interCount (dupNbrs ts true e) (oppMembers true cl') = 0 := by
        intro hall
        have h0 := hall cl hclmem
        have hpos : 0 < interCount (dupNbrs ts true e) (oppMembers true cl) := by
          rw [interCount_pos_iff]
          refine ⟨n, hn, ?_⟩
          show n ∈ cl.merchants
          rw [← hclm]
          exact hnm
        omega
      have hne' : dupNbrs ts true e ≠ [] := hne
      have hmidne : dupMidC ts t (find_clusters_core ts).clusters e ≠ [] := by
        intro hc
        rw [hc] at hjmid
        simp at hjmid
      have hplt : (primaryIdx true (cardholder_to_merchants ts e)
          (dupMidC ts t (find_clusters_core ts).clusters e)).1
          < (dupMidC ts t (find_clusters_core ts).clusters e).length :=
        primaryIdx_fst_lt hmidne
      have hstep : e ∈ cardAt
          (dupStep ts t true e (dupMidC ts t (find_clusters_core ts).clusters e))
          (primaryIdx true (cardholder_to_merchants ts e)
            (dupMidC ts t (find_clusters_core ts).clusters e)).1 := by
        rw [dupStep_eq_applyDup hne' hguard]
        rw [cardAt_applyDup_eq]
        rw [if_pos ⟨rfl, hplt, Or.inl rfl⟩]
        exact mem_insertMem_self
      have hdecomp : (cKeys ts).foldl (fun acc c => dupStep ts t true c acc)
          (find_clusters_core ts).clusters
          = ((cKeys ts).dropWhile (fun x => x != e)).tail.foldl
              (fun acc c => dupStep ts t true c acc)
              (dupStep ts t true e (dupMidC ts t (find_clusters_core ts).clusters e)) :=
        foldl_decompose_at (cKeys ts) he _
      show e ∈ cardAt (dupPass ts t (cKeys ts) (mKeys ts)
        (find_clusters_core ts).clusters) _
      unfold dupPass
      apply cardAt_foldl_dupStep_mono
      rw [hdecomp]
      apply cardAt_foldl_dupStep_mono
      exact hstep
  · intro e he
    have hne : merchant_to_cardholders ts e ≠ [] := merchant_to_cardholders_ne_nil he
    obtain ⟨n, hn⟩ := List.exists_mem_of_ne_nil _ hne
    obtain ⟨j, hjlt, hjc⟩ := core_member_card hd (m2c_subset_cKeys hn)
    have hmid : dupMidM ts t (find_clusters_core ts).clusters e
        = ((mKeys ts).takeWhile (fun x => x != e)).foldl
            (fun acc m => dupStep ts t false m acc)
            (dupPassC ts t (find_clusters_core ts).clusters) := rfl
    have hmidlen : (dupMidM ts t (find_clusters_core ts).clusters e).length
        = (find_clusters_core ts).clusters.length := by
      rw [hmid]
      rw [foldl_dupStep_length]
      unfold dupPassC
      exact foldl_dupStep_length _ _
    have hnc : n ∈ cardAt (dupMidM ts t (find_clusters_core ts).clusters e) j := by
      rw [hmid]
      apply cardAt_foldl_dupStep_mono
      unfold dupPassC
      exact cardAt_foldl_dupStep_mono _ _ j n hjc
    have hjmid : j < (dupMidM ts t (find_clusters_core ts).clusters e).length := by
      omega
    cases hg : (dupMidM ts t (find_clusters_core ts).clusters e).get? j with
    | none =>
      have := List.get?_eq_none.mp hg
      omega
    | some cl =>
      have hclc : cardAt (dupMidM ts t (find_clusters_core ts).clusters e) j
          = cl.cardholders := by
        unfold cardAt
        rw [hg]
        rfl
      have hclmem : cl ∈ dupMidM ts t (find_clusters_core ts).clusters e :=
        List.get?_mem hg
      have hguard : ¬ ∀ cl' ∈ dupMidM ts t (find_clusters_core ts).clusters e,
          interCount (dupNbrs ts false e) (oppMembers false cl') = 0 := by
        intro hall
        have h0 := hall cl hclmem
        have hpos : 0 < interCount (dupNbrs ts false e) (oppMembers false cl) := by
          rw [interCount_pos_iff]
          refine ⟨n, hn, ?_⟩
          show n ∈ cl.cardholders
          rw [← hclc]
          exact hnc
        omega
      have hne' : dupNbrs ts false e ≠ [] := hne
      have hmidne : dupMidM ts t (find_clusters_core ts).clusters e ≠ [] := by
        intro hc
        rw [hc] at hjmid
        simp at hjmid
      have hplt : (primaryIdx false (merchant_to_cardholders ts e)
          (dupMidM ts t (find_clusters_core ts).clusters e)).1
          < (dupMidM ts t (find_clusters_core ts).clusters e).length :=
        primaryIdx_fst_lt hmidne
      have hstep : e ∈ merchAt
          (dupStep ts t false e (dupMidM ts t (find_clusters_core ts).clusters e))
          (primaryIdx false (merchant_to_cardholders ts e)
            (dupMidM ts t (find_clusters_core ts).clusters e)).1 := by
        rw [dupStep_eq_applyDup hne' hguard]
        rw [merchAt_applyDup_eq]
        rw [if_pos ⟨rfl, hplt, Or.inl rfl⟩]
        exact mem_insertMem_self
      have hdecomp : (mKeys ts).foldl (fun acc m => dupStep ts t false m acc)
          (dupPassC ts t (find_clusters_core ts).clusters)
          = ((mKeys ts).dropWhile (fun x => x != e)).tail.foldl
              (fun acc m => dupStep ts t false m acc)
              (dupStep ts t false e (dupMidM ts t (find_clusters_core ts).clusters e)) :=
        foldl_decompose_at (mKeys ts) he _
      show e ∈ merchAt (dupPass ts t (cKeys ts) (mKeys ts)
        (find_clusters_core ts).clusters) _
      unfold dupPass
      show e ∈ merchAt ((mKeys ts).foldl (fun acc m => dupStep ts t false m acc)
        ((cKeys ts).foldl (fun acc c => dupStep ts t true c acc)
          (find_clusters_core ts).clusters)) _
      rw [show (cKeys ts).foldl (fun acc c => dupStep ts t true c acc)
          (find_clusters_core ts).clusters
          = dupPassC ts t (find_clusters_core ts).clusters from rfl]
      rw [hdecomp]
      apply merchAt_foldl_dupStep_mono
      exact hstep

/-- Witness for C3 at a concrete disciplined input. -/
theorem C3_core_assignment_complete_append_only_primary_kept_witness :
    disciplined [("C1", "M1"), ("C2", "M1")] ∧
    (∀ e ∈ entities [("C1", "M1"), ("C2", "M1")],
      e ∈ cKeys [("C1", "M1"), ("C2", "M1")] ++ mKeys [("C1", "M1"), ("C2", "M1")]) ∧
    "C1" ∈ cardAt
      (find_clusters_with_duplication [("C1", "M1"), ("C2", "M1")] (mkRat 1 2))
      (primaryIdx true
        (cardholder_to_merchants [("C1", "M1"), ("C2", "M1")] "C1")
        (dupMidC [("C1", "M1"), ("C2", "M1")] (mkRat 1 2)
          (find_clusters_core [("C1", "M1"), ("C2", "M1")]).clusters "C1")).1 :=
  ⟨by decide, by decide,
   (C3_core_assignment_complete_append_only_primary_kept
     [("C1", "M1"), ("C2", "M1")] (mkRat 1 2)
     (cKeys [("C1", "M1"), ("C2", "M1")] ++ mKeys [("C1", "M1"), ("C2", "M1")])
     (by decide) (by decide)).2.2.1 "C1" (by decide)⟩

end ClaimC3

end TechnicalBar
